import Mathlib

/-!
Shallow embedding of the ingredient-normalization pipeline of this repository.

Modelled source files:
* `ingredientNormalizer.js` (src/unnamed/part_000): `REMOVE_ADJECTIVES`,
  `UNIT_MAP`, `PINCH_IN_GRAMS`, `LIQUIDS`, `mlToGramsIfLiquid`,
  `normalizeName`, `splitCompositeIngredients`, `normalizeIngredient`.
* `ingredientCorrector.js` (src/unnamed/part_003): `SYNONYMS`,
  `REMOVE_ADJECTIVES` (extended list), `UNIT_MAP` (extended map),
  `heuristicsForName`, `cleanupName`, `parseRawIngredient`,
  `normalizeIngredients`.

Modelling conventions:
* Strings are Lean `String` / `List Char`; quantities are `ℚ` (the code only
  parses decimal literals and assigns the constant 0.3; it performs no float
  arithmetic, so exact rationals are a faithful model of the observable
  values).
* JavaScript regex character classes are modelled over their ASCII meaning:
  `\w` = `[A-Za-z0-9_]`, `\s` = space, tab, newline, carriage return,
  vertical tab, form feed; `.` is modelled as "any character" (the inputs
  contain no line terminators).  `String.prototype.trim` strips the same
  whitespace class.
* `toLowerCase` is modelled by `Char.toLower` (ASCII case mapping).
* The regexes in the source are compiled to equivalent deterministic
  functions; where a regex can backtrack (`part_003`), the model enumerates
  the group lengths in the engine's backtracking order (greedy, leftmost
  group most significant) and takes the first success.
* `new RegExp("\\b" + adj + "\\b", "gi")`-based `replace(..., "")` is
  modelled by `removeWord`: a left-to-right scan deleting each occurrence of
  the pattern that has a word-boundary on both sides.  The scan is applied
  to already-lowercased text in the source, so case-sensitive matching of
  the lowercase patterns is equivalent to the `i` flag.
-/

/-- JS `\w` character class (ASCII): letters, digits, underscore. -/
def isWordChar (c : Char) : Bool := c.isAlphanum || c == '_'

/-- JS `\s` character class restricted to ASCII whitespace. -/
def isSpaceJS (c : Char) : Bool :=
  c == ' ' || c == '\t' || c == '\n' || c == '\r' || c == '\x0b' || c == '\x0c'

/-- Lowercase a character sequence (JS `toLowerCase`, ASCII letters). -/
def lowerL (s : List Char) : List Char := s.map Char.toLower

/-- Drop leading JS whitespace (left half of `String.prototype.trim`). -/
def trimL (s : List Char) : List Char := s.dropWhile isSpaceJS

/-- Drop trailing JS whitespace (right half of `String.prototype.trim`). -/
def trimR : List Char → List Char
  | [] => []
  | c :: cs =>
    match trimR cs with
    | [] => if isSpaceJS c then [] else [c]
    | r => c :: r

/-- JS `String.prototype.trim`. -/
def trimWS (s : List Char) : List Char := trimR (trimL s)

/-- Replace each maximal run of JS whitespace by a single space
(`replace(/\s+/g, " ")`).  The flag records whether the previous character
was inside a whitespace run. -/
def collapseAux : List Char → Bool → List Char
  | [], _ => []
  | c :: cs, inRun =>
    if isSpaceJS c then
      if inRun then collapseAux cs true else ' ' :: collapseAux cs true
    else c :: collapseAux cs false

/-- JS `replace(/\s+/g, " ")`. -/
def collapseWS (s : List Char) : List Char := collapseAux s false

/-- JS `String.prototype.includes`: substring containment. -/
def hasSub (pat : List Char) : List Char → Bool
  | [] => pat.isEmpty
  | c :: cs => pat.isPrefixOf (c :: cs) || hasSub pat cs

/-- Word-boundary state to the right of a position: true when the next
character is absent or not a word character (the patterns end in a word
character, so `\b` holds exactly then). -/
def boundaryR : List Char → Bool
  | [] => true
  | c :: _ => !isWordChar c

/-- A `\bpat\b` match fires at the current position: the flag `bl` says the
previous character (if any) was not a word character, `pat` must be a
literal prefix of the text, and the character after the match must not be a
word character.  (All patterns used start and end with word characters.) -/
def matchCond (w : List Char) (bl : Bool) (s : List Char) : Bool :=
  !w.isEmpty && bl && w.isPrefixOf s && boundaryR (s.drop w.length)

/-- Boundary flag after consuming the pattern `w` itself. -/
def afterB (w : List Char) : Bool :=
  match w.getLast? with
  | none => true
  | some c => !isWordChar c

/-- Fuelled scanner for `replace(new RegExp("\\b" + w + "\\b", "g"), "")`:
delete every boundary-delimited occurrence of `w`, scanning left to right
and continuing after each deleted match. -/
def removeWordF (w : List Char) : Nat → Bool → List Char → List Char
  | 0, _, s => s
  | _ + 1, _, [] => []
  | f + 1, bl, c :: cs =>
    if matchCond w bl (c :: cs) then
      removeWordF w f (afterB w) ((c :: cs).drop w.length)
    else
      c :: removeWordF w f (!isWordChar c) cs

/-- `removeWordF` with its canonical fuel and an explicit start flag. -/
def removeWordB (w : List Char) (bl : Bool) (s : List Char) : List Char :=
  removeWordF w s.length bl s

/-- Whole-word global deletion starting at the beginning of the string. -/
def removeWord (w s : List Char) : List Char := removeWordB w true s

/-- Fuelled scanner testing whether a boundary-delimited occurrence of `w`
exists anywhere in the text. -/
def hasWordOccF (w : List Char) : Nat → Bool → List Char → Bool
  | 0, _, _ => false
  | _ + 1, _, [] => false
  | f + 1, bl, c :: cs => matchCond w bl (c :: cs) || hasWordOccF w f (!isWordChar c) cs

/-- `hasWordOccF` with its canonical fuel. -/
def hasWordOccB (w : List Char) (bl : Bool) (s : List Char) : Bool :=
  hasWordOccF w s.length bl s

/-- Fuelled split on a literal separator (JS `String.prototype.split` with a
string argument): leftmost, non-overlapping. -/
def splitOnSepF (sep : List Char) : Nat → List Char → List Char → List (List Char)
  | 0, acc, s => [acc.reverse ++ s]
  | f + 1, acc, s =>
    if !sep.isEmpty && sep.isPrefixOf s then
      acc.reverse :: splitOnSepF sep f [] (s.drop sep.length)
    else
      match s with
      | [] => [acc.reverse]
      | c :: cs => splitOnSepF sep f (c :: acc) cs

/-- JS `s.split(sep)` for a non-empty literal separator. -/
def splitOnSep (sep s : List Char) : List (List Char) := splitOnSepF sep s.length [] s

/- ----------------------------------------------------------------------
part_000: ingredientNormalizer.js
---------------------------------------------------------------------- -/

/-- `REMOVE_ADJECTIVES` of ingredientNormalizer.js, in source order. -/
def REMOVE_ADJECTIVES : List String :=
  ["fresh", "raw", "organic", "smoked", "thick", "thin", "large", "small",
   "extra", "extra virgin", "virgin", "plain", "unsweetened"]

/-- `UNIT_MAP` of ingredientNormalizer.js as an association list. -/
def UNIT_MAP : List (String × String) :=
  [("tbsp", "tablespoon"), ("tbs", "tablespoon"), ("tablespoon", "tablespoon"),
   ("tbspn", "tablespoon"),
   ("tsp", "teaspoon"), ("tsps", "teaspoon"), ("teaspoon", "teaspoon"),
   ("g", "g"), ("gram", "g"), ("grams", "g"),
   ("ml", "ml"), ("milliliter", "ml"), ("milliliters", "ml"),
   ("cup", "cup"), ("cups", "cup"),
   ("pinch", "pinch"), ("handful", "handful")]

/-- `PINCH_IN_GRAMS = 0.3` (written as `mkRat 3 10`, the same rational, so
that the kernel can evaluate it). -/
def PINCH_IN_GRAMS : ℚ := mkRat 3 10

/-- `LIQUIDS` of ingredientNormalizer.js. -/
def LIQUIDS : List String := ["milk", "soy milk", "vinegar", "oil", "sauce", "water"]

/-- `mlToGramsIfLiquid(quantity, name)`: both branches return the quantity
unchanged (1 ml = 1 g density assumption), keeping the source's shape. -/
def mlToGramsIfLiquid (quantity : ℚ) (name : List Char) : ℚ :=
  if !(LIQUIDS.any fun liq => hasSub liq.data name) then quantity
  else quantity

/-- The adjective-stripping `forEach` loop of `normalizeName`. -/
def removeAdjectives (s : List Char) : List Char :=
  REMOVE_ADJECTIVES.foldl (fun acc adj => removeWord adj.data acc) s

/-- The cleaning pipeline of `normalizeName` before the special fallbacks:
lowercase, trim, strip stoplist adjectives as whole words, collapse
whitespace, trim. -/
def cleanCore (s : List Char) : List Char :=
  trimWS (collapseWS (removeAdjectives (trimWS (lowerL s))))

/-- `normalizeName` of ingredientNormalizer.js on character lists. -/
def normalizeNameL (s : List Char) : List Char :=
  let cleaned := cleanCore s
  if hasSub "soy milk".data cleaned then "soy milk".data
  else if hasSub "apple cider vinegar".data cleaned then "vinegar".data
  else if hasSub "balsamic".data cleaned then "balsamic vinegar".data
  else if hasSub "smoked tofu".data cleaned then "tofu".data
  else cleaned

/-- `normalizeName` of ingredientNormalizer.js. -/
def normalizeName (s : String) : String := String.mk (normalizeNameL s.data)

/-- The canonical ingredient record produced by `normalizeIngredient`. -/
structure Ingredient where
  quantity : ℚ
  unit : String
  name : String
deriving DecidableEq

/-- `splitCompositeIngredients(quantity, unit, name)`. -/
def splitCompositeIngredients (quantity : ℚ) (unit : String) (name : String) :
    List Ingredient :=
  if hasSub " and ".data name.data then
    (splitOnSep " and ".data name.data).map fun n =>
      ⟨quantity, unit, String.mk (normalizeNameL (trimWS n))⟩
  else
    [⟨quantity, unit, String.mk (normalizeNameL name.data)⟩]

/-- Numeric value of a digit string. -/
def digitsToNat (l : List Char) : Nat :=
  l.foldl (fun n c => 10 * n + (c.toNat - 48)) 0

/-- `parseFloat` on a matched `\d+(\.\d+)?` token, as an exact rational:
the value of `ds.fs` is `(ds * 10^|fs| + fs) / 10^|fs|`. -/
def parseDec (ds fs : List Char) : ℚ :=
  mkRat (digitsToNat ds * 10 ^ fs.length + digitsToNat fs) (10 ^ fs.length)

/-- The anchored match `raw.trim().match(/^(\d+(\.\d+)?)\s+(\S+)\s+(.+)$/)`
of `normalizeIngredient`, returning (quantity, raw unit token, name).  The
regex admits no essential backtracking (shrinking any greedy group only
moves a mandatory `\s+` onto a non-space character), so the greedy
deterministic scan below is equivalent. -/
def parseLine (raw : String) : Option (ℚ × String × String) :=
  let s := trimWS raw.data
  let ds := s.takeWhile Char.isDigit
  if ds.isEmpty then none else
  let r1 := s.drop ds.length
  let fr :=
    if r1.head? = some '.' then
      let fs := r1.tail.takeWhile Char.isDigit
      if fs.isEmpty then (([] : List Char), r1) else (fs, r1.tail.drop fs.length)
    else (([] : List Char), r1)
  let sp1 := fr.2.takeWhile isSpaceJS
  if sp1.isEmpty then none else
  let r3 := fr.2.drop sp1.length
  let ut := r3.takeWhile fun c => !isSpaceJS c
  if ut.isEmpty then none else
  let r4 := r3.drop ut.length
  let sp2 := r4.takeWhile isSpaceJS
  if sp2.isEmpty then none else
  let nm := r4.drop sp2.length
  if nm.isEmpty then none else
  some (parseDec ds fr.1, String.mk ut, String.mk nm)

/-- The unit-conversion block of `normalizeIngredient`: canonicalize the
unit through `UNIT_MAP` (unknown units pass through), then `pinch → g` with
the fixed quantity, then `ml → g`. -/
def applyUnitConv (q : ℚ) (unitTok : String) (nm : String) : ℚ × String :=
  let unit1 := (List.lookup unitTok UNIT_MAP).getD unitTok
  if unit1 = "pinch" then (PINCH_IN_GRAMS, "g")
  else if unit1 = "ml" then (mlToGramsIfLiquid q (lowerL nm.data), "g")
  else (q, unit1)

/-- `normalizeIngredient(raw)` of ingredientNormalizer.js. -/
def normalizeIngredient (raw : String) : List Ingredient :=
  match parseLine raw with
  | none => []
  | some (q, ut, nm) =>
    let unit0 := String.mk (lowerL ut.data)
    let qu := applyUnitConv q unit0 nm
    let baseList := splitCompositeIngredients qu.1 qu.2 nm
    baseList.map fun item => ⟨item.quantity, item.unit, String.mk (normalizeNameL item.name.data)⟩

/- ----------------------------------------------------------------------
part_003: ingredientCorrector.js
---------------------------------------------------------------------- -/

/-- Value of an entry of `SYNONYMS`: a string, or a list (fan-out). -/
inductive CleanVal where
  | one : String → CleanVal
  | many : List String → CleanVal
deriving DecidableEq

/-- `SYNONYMS` of ingredientCorrector.js, in insertion order. -/
def SYNONYMS : List (String × CleanVal) :=
  [("apple cider vinegar", .one "vinegar"), ("acv", .one "vinegar"),
   ("balsamic glaze", .one "balsamic vinegar"),
   ("olive oil extra virgin", .one "olive oil"),
   ("extra virgin olive oil", .one "olive oil"),
   ("soy milk", .one "soy milk"), ("soya milk", .one "soy milk"),
   ("maple syrup", .one "maple syrup"),
   ("nutritional yeast", .one "nutritional yeast"),
   ("smoked tofu", .one "tofu"),
   ("brussels sprouts", .one "brussels sprouts"),
   ("salt and pepper", .many ["salt", "pepper"])]

/-- `REMOVE_ADJECTIVES` of ingredientCorrector.js. -/
def REMOVE_ADJECTIVES3 : List String :=
  ["fresh", "raw", "organic", "smoked", "thick", "thin", "large", "small",
   "extra", "plain", "unsweetened", "chopped", "sliced", "diced", "minced",
   "shredded", "grated"]

/-- `UNIT_MAP` of ingredientCorrector.js. -/
def UNIT_MAP3 : List (String × String) :=
  [("tbs", "tbsp"), ("tbspn", "tbsp"), ("tbsp", "tbsp"),
   ("tablespoon", "tbsp"), ("tablespoons", "tbsp"),
   ("tsp", "tsp"), ("teaspoon", "tsp"), ("teaspoons", "tsp"),
   ("g", "g"), ("gram", "g"), ("grams", "g"), ("kg", "kg"),
   ("ml", "ml"), ("milliliter", "ml"), ("l", "l"),
   ("cup", "cup"), ("cups", "cup"),
   ("pinch", "pinch"), ("dash", "dash"), ("clove", "clove"),
   ("slice", "slice"), ("pkg", "package"), ("package", "package"),
   ("oz", "oz"), ("lb", "lb")]

/-- `heuristicsForName(name)` of ingredientCorrector.js. -/
def heuristicsForName (name : String) : Option String :=
  let n := lowerL name.data
  if hasSub "salt".data n || hasSub "pepper".data n || hasSub "spice".data n then
    some "tsp"
  else if hasSub "oil".data n || hasSub "vinegar".data n || hasSub "sauce".data n then
    some "tbsp"
  else if hasSub "milk".data n || hasSub "water".data n || hasSub "juice".data n then
    some "cup"
  else none

/-- `cleanupName(rawName)` of ingredientCorrector.js. -/
def cleanupName (rawName : String) : CleanVal :=
  let s0 := trimWS (lowerL rawName.data)
  let s1 := REMOVE_ADJECTIVES3.foldl (fun acc adj => removeWord adj.data acc) s0
  let s := trimWS (collapseWS s1)
  match SYNONYMS.find? fun kv => hasSub kv.1.data s with
  | some kv => kv.2
  | none => .one (String.mk s)

/-- Descending list `n, n-1, ..., 0` used to enumerate greedy group lengths
in the regex engine's backtracking order. -/
def descRange (n : Nat) : List Nat := (List.range (n + 1)).reverse

/-- JS `[\d./]` character class. -/
def isDTok (c : Char) : Bool := c.isDigit || c == '.' || c == '/'

/-- `raw.match(/^([\d./]+)\s*([a-zA-Z]+)?\s*(.+)$/)`: group lengths are
enumerated longest-first (the engine's greedy backtracking order, earlier
groups most significant); the first assignment whose remainder is non-empty
wins.  Returns (group 1, optional group 2, group 3). -/
def matchFull3 (s : List Char) : Option (List Char × Option (List Char) × List Char) :=
  let d := s.takeWhile isDTok
  (descRange d.length).findSome? fun k1 =>
    if k1 = 0 then none else
    let g1 := s.take k1
    let r1 := s.drop k1
    let sp := r1.takeWhile isSpaceJS
    (descRange sp.length).findSome? fun k2 =>
      let r2 := r1.drop k2
      let al := r2.takeWhile Char.isAlpha
      let tries : List (Option Nat) :=
        ((descRange al.length).filterMap fun k => if k = 0 then none else some (some k)) ++ [none]
      tries.findSome? fun g2k =>
        match g2k with
        | some k3 =>
          let g2 := r2.take k3
          let r3 := r2.drop k3
          let sp2 := r3.takeWhile isSpaceJS
          (descRange sp2.length).findSome? fun k4 =>
            let rest := r3.drop k4
            if rest.isEmpty then none else some (g1, some g2, rest)
        | none =>
          let sp2 := r2.takeWhile isSpaceJS
          (descRange sp2.length).findSome? fun k4 =>
            let rest := r2.drop k4
            if rest.isEmpty then none else some (g1, none, rest)

/-- `p.match(/^([\d./]+)?\s*([a-zA-Z]+)?\s*(.+)$/)` (group 1 also optional):
same enumeration, group-1-present alternatives first. -/
def matchM (s : List Char) : Option (Option (List Char) × Option (List Char) × List Char) :=
  let d := s.takeWhile isDTok
  let g1tries : List (Option Nat) :=
    ((descRange d.length).filterMap fun k => if k = 0 then none else some (some k)) ++ [none]
  g1tries.findSome? fun g1k =>
    let k1 := g1k.getD 0
    let g1 : Option (List Char) := g1k.map fun k => s.take k
    let r1 := s.drop k1
    let sp := r1.takeWhile isSpaceJS
    (descRange sp.length).findSome? fun k2 =>
      let r2 := r1.drop k2
      let al := r2.takeWhile Char.isAlpha
      let tries : List (Option Nat) :=
        ((descRange al.length).filterMap fun k => if k = 0 then none else some (some k)) ++ [none]
      tries.findSome? fun g2k =>
        match g2k with
        | some k3 =>
          let g2 := r2.take k3
          let r3 := r2.drop k3
          let sp2 := r3.takeWhile isSpaceJS
          (descRange sp2.length).findSome? fun k4 =>
            let rest := r3.drop k4
            if rest.isEmpty then none else some (g1, some g2, rest)
        | none =>
          let sp2 := r2.takeWhile isSpaceJS
          (descRange sp2.length).findSome? fun k4 =>
            let rest := r2.drop k4
            if rest.isEmpty then none else some (g1, none, rest)

/-- `raw.match(/^([\d./]+\s*\w*)\s+(.*)/)`: digits-dots-slashes, optional
spaces, optional word-characters as group 1, then mandatory whitespace,
then everything else as group 2. -/
def matchAndHead (s : List Char) : Option (List Char × List Char) :=
  let d := s.takeWhile isDTok
  (descRange d.length).findSome? fun k1 =>
    if k1 = 0 then none else
    let r1 := s.drop k1
    let sp := r1.takeWhile isSpaceJS
    (descRange sp.length).findSome? fun k2 =>
      let r2 := r1.drop k2
      let wl := r2.takeWhile isWordChar
      (descRange wl.length).findSome? fun k3 =>
        let r3 := r2.drop k3
        let sp2 := r3.takeWhile isSpaceJS
        if sp2.isEmpty then none
        else some (s.take (k1 + k2 + k3), r3.drop sp2.length)

/-- `/ and /i.test(raw)`: the pattern has no word letters outside `and`, so
case-insensitive containment is containment in the lowercased text. -/
def testAndCI (s : List Char) : Bool := hasSub " and ".data (lowerL s)

/-- Match `/\s+and\s+/i` at the start of `s`; on success return the rest.
The leading `\s+` is greedy and cannot usefully backtrack (a shorter run
leaves a space where `and` is required). -/
def tryAndMatch (s : List Char) : Option (List Char) :=
  let sp := s.takeWhile isSpaceJS
  if sp.isEmpty then none else
  match s.drop sp.length with
  | a :: n :: d :: rest =>
    if a.toLower == 'a' && n.toLower == 'n' && d.toLower == 'd' then
      let sp2 := rest.takeWhile isSpaceJS
      if sp2.isEmpty then none else some (rest.drop sp2.length)
    else none
  | _ => none

/-- Fuelled scanner for `split(/\s+and\s+/i)`. -/
def splitAndAux : Nat → List Char → List Char → List (List Char)
  | 0, acc, s => [acc.reverse ++ s]
  | _ + 1, acc, [] => [acc.reverse]
  | f + 1, acc, c :: cs =>
    match tryAndMatch (c :: cs) with
    | some rest => acc.reverse :: splitAndAux f [] rest
    | none => splitAndAux f (c :: acc) cs

/-- `s.split(/\s+and\s+/i)`. -/
def splitAndRe (s : List Char) : List (List Char) := splitAndAux s.length [] s

/-- Fuelled first-occurrence replacement (JS `String.prototype.replace` with
a string pattern). -/
def replaceFirstF : Nat → List Char → List Char → List Char → List Char
  | 0, s, _, _ => s
  | f + 1, s, pat, rep =>
    if pat.isPrefixOf s then rep ++ s.drop pat.length
    else
      match s with
      | [] => []
      | c :: cs => c :: replaceFirstF f cs pat rep

/-- JS `s.replace(pat, rep)` for string `pat`: replace the first occurrence
(or return `s` unchanged when there is none). -/
def replaceFirstL (s pat rep : List Char) : List Char :=
  replaceFirstF (s.length + 1) s pat rep

/-- `parseRawIngredient(raw)` of ingredientCorrector.js. -/
def parseRawIngredient (raw : String) : Option (List String) :=
  let r := trimWS raw.data
  if r.isEmpty then none
  else if testAndCI r then
    match matchAndHead r with
    | some qn =>
      let qtyToken := qn.1
      let parts := splitAndRe qn.2
      some (parts.enum.map fun ip =>
        if ip.1 = 0 then String.mk (qtyToken ++ ' ' :: trimWS ip.2)
        else
          let hu := (heuristicsForName (String.mk ip.2)).getD "tsp"
          String.mk ('1' :: ' ' :: (hu.data ++ ' ' :: trimWS ip.2)))
    | none => some ((splitAndRe r).map fun p => String.mk (trimWS p))
  else
    match matchFull3 r with
    | some g =>
      let qty := g.1
      let unitRaw := lowerL ((g.2.1).getD [])
      let nameRaw := g.2.2
      let unit :=
        match List.lookup (String.mk unitRaw) UNIT_MAP3 with
        | some v => v.data
        | none =>
          if !unitRaw.isEmpty then unitRaw
          else
            match heuristicsForName (String.mk nameRaw) with
            | some h => h.data
            | none => []
      some [String.mk (trimWS (qty ++ ' ' :: (unit ++ ' ' :: nameRaw)))]
    | none => some [String.mk r]

/-- One diagnostics entry of `normalizeIngredients`. -/
structure Diagnostic where
  original : String
  normalizedTo : Option String
  reason : String
deriving DecidableEq

/-- Body of the inner `for (const p of parsed)` loop: extract the name part
with `/^([\d./]+)?\s*([a-zA-Z]+)?\s*(.+)$/`, clean it, and rebuild the
strings (with fan-out when the synonym value is a list).  Each produced
normalized string is paired with its diagnostics entry. -/
def stepItems (raw p : String) : List (String × Diagnostic) :=
  let namePart :=
    match matchM p.data with
    | some g => String.mk g.2.2
    | none => p
  match cleanupName namePart with
  | .many cs =>
    cs.map fun c =>
      let rebuilt := String.mk (replaceFirstL p.data namePart.data c.data)
      (rebuilt, ⟨raw, some rebuilt, "synonym-split"⟩)
  | .one c =>
    let rebuilt := String.mk (replaceFirstL p.data namePart.data c.data)
    [(rebuilt, ⟨raw, some rebuilt, "normalized"⟩)]

/-- Results of one iteration of the outer loop of `normalizeIngredients`:
normalized strings (when any) paired with diagnostics entries, in emission
order. -/
def entryResults (raw : String) : List (Option String × Diagnostic) :=
  match parseRawIngredient raw with
  | none => [(none, ⟨raw, none, "unparsed"⟩)]
  | some [] => [(none, ⟨raw, none, "unparsed"⟩)]
  | some parsed =>
    (parsed.map fun p => (stepItems raw p).map fun x => (some x.1, x.2)).flatten

/-- The `normalized` list of `normalizeIngredients` before deduplication. -/
def preDedup (l : List String) : List String :=
  ((l.map entryResults).flatten).filterMap Prod.fst

/-- The `diagnostics` list of `normalizeIngredients`. -/
def allDiags (l : List String) : List Diagnostic :=
  ((l.map entryResults).flatten).map Prod.snd

/-- Lowercase a string (JS `toLowerCase`). -/
def lowerStr (s : String) : String := String.mk (lowerL s.data)

/-- The final dedup loop of `normalizeIngredients`: `seen` is the set of
lowercased keys already pushed; first occurrence wins, order preserved. -/
def dedupLCAux (seen : List String) : List String → List String
  | [] => []
  | s :: rest =>
    let key := lowerStr s
    if seen.contains key then dedupLCAux seen rest
    else s :: dedupLCAux (key :: seen) rest

/-- Return value of `normalizeIngredients`. -/
structure NormalizeOutcome where
  normalized : List String
  diagnostics : List Diagnostic
deriving DecidableEq

/-- `normalizeIngredients(rawIngredients)` of ingredientCorrector.js. -/
def normalizeIngredients (rawIngredients : List String) : NormalizeOutcome :=
  ⟨dedupLCAux [] (preDedup rawIngredients), allDiags rawIngredients⟩

/-- Modelled from the spec: duplicates are removed by case-insensitive
full-string identity, the first occurrence of each duplicate group is kept,
and the relative order of kept entries is their first-occurrence order.
This is the specification-side description of deduplication, to be compared
with the code's `dedupLCAux` loop. -/
def specDedup : List String → List String
  | [] => []
  | x :: xs => x :: specDedup (xs.filter fun y => lowerStr y ≠ lowerStr x)
termination_by l => l.length
decreasing_by
  simp only [List.length_cons]
  exact Nat.lt_succ_of_le (List.length_filter_le _ _)


/-- Property of a deletion pattern: non-empty, first and last characters are
word characters.  Every stoplist adjective pattern has this shape (including
the two-word "extra virgin"), so a `\\b...\\b` occurrence is always flanked
by non-word context. -/
def wordEdged : List Char → Bool
  | [] => false
  | c :: cs => isWordChar c && !afterB (c :: cs)

/-- Property of a character list: every whitespace character in it is a
plain space and is neither preceded by the start of a run of whitespace nor
followed by another whitespace character — i.e. the text is in the normal
form produced by `replace(/\\s+/g, " ")`. -/
def collapsedOK : List Char → Bool
  | [] => true
  | [c] => !isSpaceJS c || c == ' '
  | c :: d :: r => (!isSpaceJS c || (c == ' ' && !isSpaceJS d)) && collapsedOK (d :: r)

/- ----------------------------------------------------------------------
Helper lemmas
---------------------------------------------------------------------- -/

theorem mlToGrams_eq (q : ℚ) (n : List Char) : mlToGramsIfLiquid q n = q := by
  unfold mlToGramsIfLiquid
  split <;> rfl

theorem split_fields (q : ℚ) (u n : String) :
    ∀ r ∈ splitCompositeIngredients q u n, r.quantity = q ∧ r.unit = u := by
  intro r hr
  unfold splitCompositeIngredients at hr
  split at hr
  · obtain ⟨x, _, rfl⟩ := List.mem_map.1 hr
    exact ⟨rfl, rfl⟩
  · simp only [List.mem_singleton] at hr
    subst hr
    exact ⟨rfl, rfl⟩

theorem normalizeIngredient_fields (raw : String) (q : ℚ) (ut nm : String)
    (hp : parseLine raw = some (q, ut, nm)) :
    ∀ r ∈ normalizeIngredient raw,
      r.quantity = (applyUnitConv q (lowerStr ut) nm).1 ∧
      r.unit = (applyUnitConv q (lowerStr ut) nm).2 := by
  intro r hr
  unfold normalizeIngredient at hr
  rw [hp] at hr
  obtain ⟨it, hit, rfl⟩ := List.mem_map.1 hr
  have h2 := split_fields _ _ _ _ hit
  exact ⟨h2.1, h2.2⟩

theorem applyUnitConv_of_ml (q : ℚ) (u nm : String)
    (h : (List.lookup u UNIT_MAP).getD u = "ml") :
    applyUnitConv q u nm = (q, "g") := by
  unfold applyUnitConv
  rw [h]
  rw [if_neg (by decide), if_pos rfl, mlToGrams_eq]

theorem applyUnitConv_of_pinch (q : ℚ) (u nm : String)
    (h : (List.lookup u UNIT_MAP).getD u = "pinch") :
    applyUnitConv q u nm = (PINCH_IN_GRAMS, "g") := by
  unfold applyUnitConv
  rw [h]
  rw [if_pos rfl]

theorem lookup_mem_values {α β : Type} [BEq α] (k : α) (v : β) :
    ∀ m : List (α × β), List.lookup k m = some v → v ∈ m.map Prod.snd := by
  intro m
  induction m with
  | nil => intro h; simp [List.lookup] at h
  | cons p t ih =>
    obtain ⟨k1, v1⟩ := p
    intro h
    simp only [List.lookup] at h
    split at h
    · injection h with h
      subst h
      simp
    · simp only [List.map]
      exact List.mem_cons_of_mem _ (ih h)

theorem applyUnitConv_unit_closure (q : ℚ) (u nm : String) (v : String)
    (hlook : List.lookup u UNIT_MAP = some v) :
    (applyUnitConv q u nm).2 ∈ ["tablespoon", "teaspoon", "g", "ml", "cup", "handful"] ∧
    (applyUnitConv q u nm).2 ≠ "pinch" ∧
    (applyUnitConv q u nm).2 ∉
      ["tbsp", "tbs", "tbspn", "tsps", "gram", "grams", "milliliter",
       "milliliters", "cups", "pinch"] := by
  have hv := lookup_mem_values u v UNIT_MAP hlook
  simp only [UNIT_MAP, List.map] at hv
  unfold applyUnitConv
  rw [hlook]
  simp only [Option.getD]
  fin_cases hv <;> simp

/- ----------------------------------------------------------------------
Claim theorems
---------------------------------------------------------------------- -/

/-- Claim C1: for the input "1 pinch salt and pepper", `normalizeIngredient`
returns exactly 2 records, one named "salt" and one named "pepper", each
with quantity 0.3 (= `PINCH_IN_GRAMS`) and unit "g". -/
theorem claim_C1_composite_split :
    normalizeIngredient "1 pinch salt and pepper" =
      [⟨PINCH_IN_GRAMS, "g", "salt"⟩, ⟨PINCH_IN_GRAMS, "g", "pepper"⟩] ∧
    PINCH_IN_GRAMS = 0.3 := by
  constructor
  · decide
  · rw [PINCH_IN_GRAMS]
    norm_num [Rat.ofScientific_true_def]

/-- Claim C2: whenever the (pre-split) name contains the literal substring
" and ", every record produced by `splitCompositeIngredients` carries
exactly the quantity and unit of the original record; splitting touches
only the name field. -/
theorem claim_C2_split_inherits (q : ℚ) (u n : String)
    (hand : hasSub " and ".data n.data = true) :
    ∀ r ∈ splitCompositeIngredients q u n, r.quantity = q ∧ r.unit = u :=
  split_fields q u n

/-- Witness for C2 at the concrete composite line "salt and pepper". -/
theorem claim_C2_witness :
    (Ingredient.mk 1 "g" "salt").quantity = 1 ∧ (Ingredient.mk 1 "g" "salt").unit = "g" :=
  claim_C2_split_inherits 1 "g" "salt and pepper" (by decide)
    ⟨1, "g", "salt"⟩ (by decide)

/-- Claim C3: when the lowercased unit token canonicalizes (through
`UNIT_MAP`) to "ml", every output record has unit "g" and quantity equal to
the parsed quantity, regardless of the name; in particular
`normalizeIngredient "100 ml soy milk"` is a single record
(100, "g", "soy milk"). -/
theorem claim_C3_ml_to_grams :
    (∀ (raw : String) (q : ℚ) (ut nm : String),
      parseLine raw = some (q, ut, nm) →
      (List.lookup (lowerStr ut) UNIT_MAP).getD (lowerStr ut) = "ml" →
      ∀ r ∈ normalizeIngredient raw, r.unit = "g" ∧ r.quantity = q) ∧
    normalizeIngredient "100 ml soy milk" = [⟨100, "g", "soy milk"⟩] := by
  constructor
  · intro raw q ut nm hp hml r hr
    have hf := normalizeIngredient_fields raw q ut nm hp r hr
    rw [applyUnitConv_of_ml q (lowerStr ut) nm hml] at hf
    exact ⟨hf.2, hf.1⟩
  · decide

/-- Witness for C3 at "100 ml soy milk". -/
theorem claim_C3_witness :
    (Ingredient.mk 100 "g" "soy milk").unit = "g" ∧
    (Ingredient.mk 100 "g" "soy milk").quantity = 100 :=
  claim_C3_ml_to_grams.1 "100 ml soy milk" 100 "ml" "soy milk" (by decide) (by decide)
    ⟨100, "g", "soy milk"⟩ (by decide)

/-- Claim C8: `normalizeIngredient` is total (it is a Lean function into
`List Ingredient`), and on every line whose leading quantity token cannot be
parsed it completes normally with the empty list — the unparsable-line
policy is non-fatal. -/
theorem claim_C8_unparsable_empty (raw : String) (h : parseLine raw = none) :
    normalizeIngredient raw = [] := by
  unfold normalizeIngredient
  rw [h]

/-- Witness for C8 at the bare name "salt" (no leading numeric token). -/
theorem claim_C8_witness : normalizeIngredient "salt" = [] :=
  claim_C8_unparsable_empty "salt" (by decide)

/-- Claim C10: when the unit token canonicalizes to "pinch", the output
quantity is the constant `PINCH_IN_GRAMS` = 0.3 g, replacing (not scaling)
the parsed quantity, and the unit becomes "g"; in particular
"2 pinch salt" yields quantity 0.3, not 0.6. -/
theorem claim_C10_pinch_overwrite :
    (∀ (raw : String) (q : ℚ) (ut nm : String),
      parseLine raw = some (q, ut, nm) →
      (List.lookup (lowerStr ut) UNIT_MAP).getD (lowerStr ut) = "pinch" →
      ∀ r ∈ normalizeIngredient raw, r.quantity = PINCH_IN_GRAMS ∧ r.unit = "g") ∧
    parseLine "2 pinch salt" = some (2, "pinch", "salt") ∧
    normalizeIngredient "2 pinch salt" = [⟨PINCH_IN_GRAMS, "g", "salt"⟩] ∧
    PINCH_IN_GRAMS = 0.3 ∧ (0.3 : ℚ) ≠ 0.6 := by
  refine ⟨?_, by decide, by decide, ?_, by norm_num⟩
  · intro raw q ut nm hp hpinch r hr
    have hf := normalizeIngredient_fields raw q ut nm hp r hr
    rw [applyUnitConv_of_pinch q (lowerStr ut) nm hpinch] at hf
    exact hf
  · rw [PINCH_IN_GRAMS]
    norm_num [Rat.ofScientific_true_def]

/-- Witness for C10 at "2 pinch salt". -/
theorem claim_C10_witness :
    (Ingredient.mk PINCH_IN_GRAMS "g" "salt").quantity = PINCH_IN_GRAMS ∧
    (Ingredient.mk PINCH_IN_GRAMS "g" "salt").unit = "g" :=
  claim_C10_pinch_overwrite.1 "2 pinch salt" 2 "pinch" "salt" (by decide) (by decide)
    ⟨PINCH_IN_GRAMS, "g", "salt"⟩ (by decide)

theorem takeWhile_all_eq {p : Char → Bool} : ∀ {l : List Char}, l.all p = true →
    l.takeWhile p = l := by
  intro l
  induction l with
  | nil => intro _; rfl
  | cons c cs ih =>
    intro h
    simp only [List.all_cons, Bool.and_eq_true] at h
    simp [List.takeWhile, h.1, ih h.2]

theorem takeWhile_append_stop {p : Char → Bool} {l : List Char} (h : l.all p = true)
    {c : Char} (hc : p c = false) (t : List Char) :
    (l ++ c :: t).takeWhile p = l := by
  induction l with
  | nil => simp [List.takeWhile, hc]
  | cons d ds ih =>
    simp only [List.all_cons, Bool.and_eq_true] at h
    simp [List.takeWhile, h.1, ih h.2]

theorem takeWhile_nil_of_head {p : Char → Bool} {c : Char} (hc : p c = false)
    (t : List Char) : (c :: t).takeWhile p = [] := by
  simp [List.takeWhile, hc]

theorem digit_not_space {c : Char} (h : c.isDigit = true) : isSpaceJS c = false := by
  unfold isSpaceJS
  have h1 : (c == ' ') = false := by
    cases hb : c == ' ' with
    | true => exact absurd h (by rw [eq_of_beq hb]; decide)
    | false => rfl
  have h2 : (c == '\t') = false := by
    cases hb : c == '\t' with
    | true => exact absurd h (by rw [eq_of_beq hb]; decide)
    | false => rfl
  have h3 : (c == '\n') = false := by
    cases hb : c == '\n' with
    | true => exact absurd h (by rw [eq_of_beq hb]; decide)
    | false => rfl
  have h4 : (c == '\r') = false := by
    cases hb : c == '\r' with
    | true => exact absurd h (by rw [eq_of_beq hb]; decide)
    | false => rfl
  have h5 : (c == '\x0b') = false := by
    cases hb : c == '\x0b' with
    | true => exact absurd h (by rw [eq_of_beq hb]; decide)
    | false => rfl
  have h6 : (c == '\x0c') = false := by
    cases hb : c == '\x0c' with
    | true => exact absurd h (by rw [eq_of_beq hb]; decide)
    | false => rfl
  simp [h1, h2, h3, h4, h5, h6]

theorem trimR_eq_self_of_last : ∀ {l : List Char},
    (∀ c, l.getLast? = some c → isSpaceJS c = false) → trimR l = l := by
  intro l
  induction l with
  | nil => intro _; rfl
  | cons c cs ih =>
    intro h
    cases cs with
    | nil =>
      have hc := h c rfl
      simp [trimR, hc]
    | cons d ds =>
      have hrec : trimR (d :: ds) = d :: ds := by
        apply ih
        intro x hx
        apply h
        rw [List.getLast?_cons_cons]
        exact hx
      rw [trimR, hrec]

/-- Claim C4 counterexample: the parser accepts "1 clove garlic", but the
unknown unit token "clove" passes through `UNIT_MAP` verbatim and appears
in the output, outside the canonical unit set. -/
theorem claim_C4_counterexample :
    normalizeIngredient "1 clove garlic" = [⟨1, "clove", "garlic"⟩] ∧
    "clove" ∉ ["tablespoon", "teaspoon", "g", "ml", "cup", "handful"] := by
  constructor
  · decide
  · decide

/-- Claim C4 (amended): for every input line accepted by the parser whose
lowercased unit token is a key of `UNIT_MAP`, every record returned by
`normalizeIngredient` has a unit drawn from the canonical set
{tablespoon, teaspoon, g, ml, cup, handful}; "pinch" never appears in the
output and no raw synonym spelling leaks through. -/
theorem claim_C4_unit_closure_amended (raw : String) (q : ℚ) (ut nm v : String)
    (hp : parseLine raw = some (q, ut, nm))
    (hlook : List.lookup (lowerStr ut) UNIT_MAP = some v) :
    ∀ r ∈ normalizeIngredient raw,
      r.unit ∈ ["tablespoon", "teaspoon", "g", "ml", "cup", "handful"] ∧
      r.unit ≠ "pinch" ∧
      r.unit ∉ ["tbsp", "tbs", "tbspn", "tsps", "gram", "grams", "milliliter",
                 "milliliters", "cups", "pinch"] := by
  intro r hr
  have hf := (normalizeIngredient_fields raw q ut nm hp r hr).2
  rw [hf]
  exact applyUnitConv_unit_closure q (lowerStr ut) nm v hlook

/-- Witness for the amended C4 at "1 tbsp oil". -/
theorem claim_C4_witness :
    (Ingredient.mk 1 "tablespoon" "oil").unit ∈
      ["tablespoon", "teaspoon", "g", "ml", "cup", "handful"] ∧
    (Ingredient.mk 1 "tablespoon" "oil").unit ≠ "pinch" ∧
    (Ingredient.mk 1 "tablespoon" "oil").unit ∉
      ["tbsp", "tbs", "tbspn", "tsps", "gram", "grams", "milliliter",
       "milliliters", "cups", "pinch"] :=
  claim_C4_unit_closure_amended "1 tbsp oil" 1 "tbsp" "oil" "tablespoon"
    (by decide) (by decide) ⟨1, "tablespoon", "oil"⟩ (by decide)

/-- Claim C5 counterexample: for the trimmed line "2 eggs" (leading numeric
token followed only by a name, no unit token) parsing does not succeed with
an empty unit: `normalizeIngredient` rejects the line outright (its regex
demands three whitespace-separated fields), and `parseRawIngredient`
accepts it but lets the optional unit group capture "egg", leaving the name
"s" — it returns "2 egg s", not an empty-unit record. -/
theorem claim_C5_counterexample :
    parseLine "2 eggs" = none ∧
    normalizeIngredient "2 eggs" = [] ∧
    parseRawIngredient "2 eggs" = some ["2 egg s"] := by
  refine ⟨by decide, by decide, by decide⟩

/-- Claim C5 (amended): a trimmed line made of a leading numeric token —
integer ("2") or decimal ("2.5") — one space and a single space-free word
with no unit token (e.g. "2 eggs") is not parsed as a quantified
ingredient by the main pipeline: `parseLine` fails and
`normalizeIngredient` returns the empty list.  `parseRawIngredient` of
part_003 accepts such lines but does not yield an empty-unit record
either: its optional unit group captures a letter prefix of the word,
concretely "2 eggs" is rebuilt as "2 egg s" and "2.5 eggs" as
"2.5 egg s". -/
theorem claim_C5_amended :
    (∀ (ds w : List Char), ds ≠ [] → ds.all Char.isDigit = true →
      w ≠ [] → w.all (fun c => !isSpaceJS c) = true →
      parseLine (String.mk (ds ++ ' ' :: w)) = none ∧
      normalizeIngredient (String.mk (ds ++ ' ' :: w)) = []) ∧
    (∀ (ds fs w : List Char), ds ≠ [] → ds.all Char.isDigit = true →
      fs ≠ [] → fs.all Char.isDigit = true →
      w ≠ [] → w.all (fun c => !isSpaceJS c) = true →
      parseLine (String.mk (ds ++ '.' :: (fs ++ ' ' :: w))) = none ∧
      normalizeIngredient (String.mk (ds ++ '.' :: (fs ++ ' ' :: w))) = []) ∧
    parseRawIngredient "2 eggs" = some ["2 egg s"] ∧
    parseRawIngredient "2.5 eggs" = some ["2.5 egg s"] := by
  refine ⟨?_, ?_, by decide, by decide⟩
  · intro ds w hds hdig hw hns
    have hparse : parseLine (String.mk (ds ++ ' ' :: w)) = none := by
      have hdsp : ds.all (fun c => !isSpaceJS c) = true := by
        rw [List.all_eq_true] at hdig ⊢
        intro c hc
        rw [digit_not_space (hdig c hc)]
        rfl
      have htrim : trimWS (ds ++ ' ' :: w) = ds ++ ' ' :: w := by
        obtain ⟨d, ds', rfl⟩ : ∃ d ds', ds = d :: ds' := by
          cases ds with
          | nil => exact absurd rfl hds
          | cons d ds' => exact ⟨d, ds', rfl⟩
        have hd : isSpaceJS d = false :=
          digit_not_space (by
            rw [List.all_eq_true] at hdig
            exact hdig d (List.mem_cons_self d ds'))
        have hL : trimL ((d :: ds') ++ ' ' :: w) = (d :: ds') ++ ' ' :: w := by
          simp [trimL, List.dropWhile, hd]
        rw [trimWS, hL]
        apply trimR_eq_self_of_last
        intro c hc
        rw [List.getLast?_append_cons] at hc
        have hcw : w.getLast? = some c := by
          cases w with
          | nil => exact absurd rfl hw
          | cons x xs => rw [List.getLast?_cons_cons] at hc; exact hc
        have hmem : c ∈ w := by
          obtain ⟨hne, rfl⟩ := List.mem_getLast?_eq_getLast hcw
          exact List.getLast_mem hne
        rw [List.all_eq_true] at hns
        have := hns c hmem
        simp only [Bool.not_eq_true'] at this
        exact this
      have hTW : (ds ++ ' ' :: w).takeWhile Char.isDigit = ds :=
        takeWhile_append_stop hdig (by decide) w
      have hsp1 : (' ' :: w).takeWhile isSpaceJS = [' '] := by
        cases w with
        | nil => exact absurd rfl hw
        | cons x xs =>
          rw [List.all_cons, Bool.and_eq_true] at hns
          have hx : isSpaceJS x = false := by
            have := hns.1
            simp only [Bool.not_eq_true'] at this
            exact this
          have hspc : isSpaceJS ' ' = true := by decide
          simp [List.takeWhile_cons, hx, hspc]
      simp only [parseLine]
      rw [htrim, hTW]
      rw [if_neg (by simp [List.isEmpty_iff, hds])]
      rw [List.drop_left]
      rw [if_neg (show ¬((' ' :: w).head? = some '.') from fun h => by
        simp only [List.head?_cons, Option.some.injEq] at h
        exact absurd h (by decide))]
      dsimp only
      rw [hsp1]
      rw [if_neg (show ¬(([' '] : List Char).isEmpty = true) by decide)]
      simp only [List.length_singleton, List.drop_succ_cons, List.drop_zero]
      rw [takeWhile_all_eq hns]
      rw [if_neg (by simp [List.isEmpty_iff, hw])]
      rw [List.drop_length]
      simp
    exact ⟨hparse, by unfold normalizeIngredient; rw [hparse]⟩
  · intro ds fs w hds hdig hfs hfdig hw hns
    have hparse : parseLine (String.mk (ds ++ '.' :: (fs ++ ' ' :: w))) = none := by
      have htrim : trimWS (ds ++ '.' :: (fs ++ ' ' :: w)) = ds ++ '.' :: (fs ++ ' ' :: w) := by
        obtain ⟨d, ds', rfl⟩ : ∃ d ds', ds = d :: ds' := by
          cases ds with
          | nil => exact absurd rfl hds
          | cons d ds' => exact ⟨d, ds', rfl⟩
        have hd : isSpaceJS d = false :=
          digit_not_space (by
            rw [List.all_eq_true] at hdig
            exact hdig d (List.mem_cons_self d ds'))
        have hL : trimL ((d :: ds') ++ '.' :: (fs ++ ' ' :: w))
            = (d :: ds') ++ '.' :: (fs ++ ' ' :: w) := by
          simp [trimL, List.dropWhile, hd]
        rw [trimWS, hL]
        apply trimR_eq_self_of_last
        intro c hc
        rw [List.getLast?_append_cons] at hc
        rw [show ('.' :: (fs ++ ' ' :: w)) = ('.' :: fs) ++ ' ' :: w from
          (List.cons_append '.' fs (' ' :: w)).symm] at hc
        rw [List.getLast?_append_cons] at hc
        have hcw : w.getLast? = some c := by
          cases w with
          | nil => exact absurd rfl hw
          | cons x xs => rw [List.getLast?_cons_cons] at hc; exact hc
        have hmem : c ∈ w := by
          obtain ⟨hne, rfl⟩ := List.mem_getLast?_eq_getLast hcw
          exact List.getLast_mem hne
        rw [List.all_eq_true] at hns
        have := hns c hmem
        simp only [Bool.not_eq_true'] at this
        exact this
      have hTW : (ds ++ '.' :: (fs ++ ' ' :: w)).takeWhile Char.isDigit = ds :=
        takeWhile_append_stop hdig (by decide) (fs ++ ' ' :: w)
      have hfsTW : (fs ++ ' ' :: w).takeWhile Char.isDigit = fs :=
        takeWhile_append_stop hfdig (by decide) w
      have hsp1 : (' ' :: w).takeWhile isSpaceJS = [' '] := by
        cases w with
        | nil => exact absurd rfl hw
        | cons x xs =>
          rw [List.all_cons, Bool.and_eq_true] at hns
          have hx : isSpaceJS x = false := by
            have := hns.1
            simp only [Bool.not_eq_true'] at this
            exact this
          have hspc : isSpaceJS ' ' = true := by decide
          simp [List.takeWhile_cons, hx, hspc]
      simp only [parseLine]
      rw [htrim, hTW]
      rw [if_neg (by simp [List.isEmpty_iff, hds])]
      rw [List.drop_left]
      have hTWall : w.takeWhile (fun c => !isSpaceJS c) = w := takeWhile_all_eq hns
      have hfsE : fs.isEmpty = false := by simp [List.isEmpty_iff, hfs]
      have hwE : w.isEmpty = false := by simp [List.isEmpty_iff, hw]
      simp [hfsTW, hfsE, List.drop_left, hsp1, hTWall, hwE]
    exact ⟨hparse, by unfold normalizeIngredient; rw [hparse]⟩

/-- Witness for the amended C5 at "2 eggs" and "2.5 eggs". -/
theorem claim_C5_witness :
    (parseLine (String.mk ("2".data ++ ' ' :: "eggs".data)) = none ∧
     normalizeIngredient (String.mk ("2".data ++ ' ' :: "eggs".data)) = []) ∧
    (parseLine (String.mk ("2".data ++ '.' :: ("5".data ++ ' ' :: "eggs".data))) = none ∧
     normalizeIngredient (String.mk ("2".data ++ '.' :: ("5".data ++ ' ' :: "eggs".data))) = []) :=
  ⟨claim_C5_amended.1 "2".data "eggs".data (by decide) (by decide) (by decide) (by decide),
   claim_C5_amended.2.1 "2".data "5".data "eggs".data (by decide) (by decide) (by decide)
     (by decide) (by decide) (by decide)⟩

theorem dedupLCAux_eq_specDedup :
    ∀ (l seen : List String),
      dedupLCAux seen l = specDedup (l.filter fun y => !seen.contains (lowerStr y)) := by
  intro l
  induction l with
  | nil => intro seen; simp [dedupLCAux, specDedup]
  | cons s rest ih =>
    intro seen
    cases hc : seen.contains (lowerStr s) with
    | true =>
      simp only [dedupLCAux, hc, if_true, List.filter_cons, Bool.not_true]
      exact ih seen
    | false =>
      simp only [dedupLCAux, hc, if_false, List.filter_cons, Bool.not_false]
      rw [if_neg (by simp), if_pos trivial]
      simp only [specDedup]
      rw [ih (lowerStr s :: seen)]
      congr 1
      rw [List.filter_filter]
      congr 1
      apply List.filter_congr
      intro y _
      rw [List.contains_cons]
      by_cases heq : lowerStr y = lowerStr s <;> simp [heq]

theorem specDedup_mem : ∀ (l : List String) (y : String), y ∈ specDedup l → y ∈ l := by
  intro l
  induction l using specDedup.induct with
  | case1 => intro y hy; simp [specDedup] at hy
  | case2 x xs ih =>
    intro y hy
    simp only [specDedup] at hy
    rcases List.mem_cons.1 hy with rfl | hy2
    · exact List.mem_cons_self _ _
    · exact List.mem_cons_of_mem _ (List.mem_of_mem_filter (ih y hy2))

theorem specDedup_pairwise :
    ∀ l : List String, List.Pairwise (fun a b => lowerStr a ≠ lowerStr b) (specDedup l) := by
  intro l
  induction l using specDedup.induct with
  | case1 => simp [specDedup]
  | case2 x xs ih =>
    simp only [specDedup]
    rw [List.pairwise_cons]
    refine ⟨?_, ih⟩
    intro b hb
    have hbf := specDedup_mem _ b hb
    have := List.of_mem_filter hbf
    simp only [decide_eq_true_eq] at this
    exact fun hxb => this hxb.symm

theorem specDedup_sublist : ∀ l : List String, (specDedup l).Sublist l := by
  intro l
  induction l using specDedup.induct with
  | case1 => simp [specDedup]
  | case2 x xs ih =>
    simp only [specDedup]
    exact List.Sublist.cons₂ x (ih.trans (List.filter_sublist xs))

/-- Claim C9: the `normalized` output of `normalizeIngredients` is the
case-insensitive first-occurrence deduplication of the pre-dedup sequence:
it equals the spec-side `specDedup` (first occurrence wins, order
preserved), no two entries agree after lower-casing, and it is a
subsequence of the pre-dedup list; in particular
`normalizeIngredients ["100 ml soy milk", "100 ML Soy Milk "]` yields
exactly one normalized entry. -/
theorem claim_C9_dedup :
    (∀ l : List String, (normalizeIngredients l).normalized = specDedup (preDedup l)) ∧
    (∀ l : List String,
      List.Pairwise (fun a b => lowerStr a ≠ lowerStr b) (normalizeIngredients l).normalized) ∧
    (∀ l : List String, (normalizeIngredients l).normalized.Sublist (preDedup l)) ∧
    (normalizeIngredients ["100 ml soy milk", "100 ML Soy Milk "]).normalized
      = ["100 ml soy milk"] := by
  have h0 : ∀ l : List String,
      (normalizeIngredients l).normalized = specDedup (preDedup l) := by
    intro l
    show dedupLCAux [] (preDedup l) = _
    rw [dedupLCAux_eq_specDedup]
    congr 1
    apply List.filter_eq_self.2
    intro a _
    rfl
  refine ⟨h0, ?_, ?_, by decide⟩
  · intro l
    rw [h0]
    exact specDedup_pairwise _
  · intro l
    rw [h0]
    exact specDedup_sublist _

theorem removeWordF_nil (w : List Char) (f : Nat) (bl : Bool) :
    removeWordF w f bl [] = [] := by
  cases f <;> rfl

theorem hasWordOccF_nil (w : List Char) (f : Nat) (bl : Bool) :
    hasWordOccF w f bl [] = false := by
  cases f <;> rfl

theorem matchCond_parts {w : List Char} {bl : Bool} {s : List Char}
    (h : matchCond w bl s = true) :
    w.isEmpty = false ∧ bl = true ∧ w.isPrefixOf s = true ∧
    boundaryR (s.drop w.length) = true := by
  simp only [matchCond, Bool.and_eq_true, Bool.not_eq_true'] at h
  exact ⟨h.1.1.1, h.1.1.2, h.1.2, h.2⟩

theorem matchCond_false_bl {w : List Char} {s : List Char} :
    matchCond w false s = false := by
  simp [matchCond]

theorem matchCond_length_pos {w : List Char} {bl : Bool} {s : List Char}
    (h : matchCond w bl s = true) : 0 < w.length := by
  have h1 := (matchCond_parts h).1
  cases w with
  | nil => simp at h1
  | cons a t => simp

theorem removeWordF_fuel (w : List Char) :
    ∀ (n f g : Nat) (bl : Bool) (s : List Char), s.length ≤ n → s.length ≤ f →
      s.length ≤ g → removeWordF w f bl s = removeWordF w g bl s := by
  intro n
  induction n with
  | zero =>
    intro f g bl s hn _ _
    have : s = [] := List.length_eq_zero.1 (Nat.le_zero.1 hn)
    subst this
    rw [removeWordF_nil, removeWordF_nil]
  | succ n ih =>
    intro f g bl s hn hf hg
    cases s with
    | nil => rw [removeWordF_nil, removeWordF_nil]
    | cons c cs =>
      simp only [List.length_cons] at hn hf hg
      obtain ⟨f', rfl⟩ : ∃ f', f = f' + 1 := by
        cases f with
        | zero => omega
        | succ f' => exact ⟨f', rfl⟩
      obtain ⟨g', rfl⟩ : ∃ g', g = g' + 1 := by
        cases g with
        | zero => omega
        | succ g' => exact ⟨g', rfl⟩
      simp only [removeWordF]
      by_cases hm : matchCond w bl (c :: cs) = true
      · rw [if_pos hm, if_pos hm]
        have hw := matchCond_length_pos hm
        have hlen : ((c :: cs).drop w.length).length ≤ n := by
          rw [List.length_drop, List.length_cons]
          omega
        exact ih f' g' (afterB w) _ hlen (by rw [List.length_drop, List.length_cons]; omega)
          (by rw [List.length_drop, List.length_cons]; omega)
      · rw [if_neg hm, if_neg hm]
        rw [ih f' g' (!isWordChar c) cs (by omega) (by omega) (by omega)]

theorem removeWordB_nil (w : List Char) (bl : Bool) : removeWordB w bl [] = [] := rfl

theorem removeWordB_cons (w : List Char) (bl : Bool) (c : Char) (cs : List Char) :
    removeWordB w bl (c :: cs) =
      if matchCond w bl (c :: cs) then removeWordB w (afterB w) ((c :: cs).drop w.length)
      else c :: removeWordB w (!isWordChar c) cs := by
  unfold removeWordB
  simp only [List.length_cons, removeWordF]
  by_cases hm : matchCond w bl (c :: cs) = true
  · rw [if_pos hm, if_pos hm]
    have hw := matchCond_length_pos hm
    apply removeWordF_fuel w ((c :: cs).drop w.length).length
    · exact Nat.le_refl _
    · rw [List.length_drop, List.length_cons]; omega
    · exact Nat.le_refl _
  · rw [if_neg hm, if_neg hm]

theorem hasWordOccB_nil (w : List Char) (bl : Bool) : hasWordOccB w bl [] = false := rfl

theorem hasWordOccB_cons (w : List Char) (bl : Bool) (c : Char) (cs : List Char) :
    hasWordOccB w bl (c :: cs) =
      (matchCond w bl (c :: cs) || hasWordOccB w (!isWordChar c) cs) := rfl

theorem removeWordB_of_no_occ (w : List Char) :
    ∀ (s : List Char) (bl : Bool), hasWordOccB w bl s = false → removeWordB w bl s = s := by
  intro s
  induction s with
  | nil => intro bl _; rfl
  | cons c cs ih =>
    intro bl h
    rw [hasWordOccB_cons, Bool.or_eq_false_iff] at h
    rw [removeWordB_cons, if_neg (by rw [h.1]; exact Bool.false_ne_true), ih _ h.2]

theorem space_not_word {c : Char} (h : isSpaceJS c = true) : isWordChar c = false := by
  simp only [isSpaceJS, Bool.or_eq_true, beq_iff_eq] at h
  rcases h with ((((rfl | rfl) | rfl) | rfl) | rfl) | rfl <;> decide

theorem word_not_space {c : Char} (h : isWordChar c = true) : isSpaceJS c = false := by
  cases hs : isSpaceJS c with
  | false => rfl
  | true => rw [space_not_word hs] at h; exact absurd h (by decide)

theorem beq_false_of_word_nonword {a e : Char} (ha : isWordChar a = true)
    (he : isWordChar e = false) : (a == e) = false := by
  cases hb : a == e with
  | false => rfl
  | true => rw [eq_of_beq hb] at ha; rw [ha] at he; exact absurd he (by decide)

theorem isPrefixOf_length_le : ∀ {v s : List Char}, v.isPrefixOf s = true →
    v.length ≤ s.length := by
  intro v
  induction v with
  | nil => intro s _; simp
  | cons a t ih =>
    intro s h
    cases s with
    | nil => simp at h
    | cons b bs =>
      rw [List.isPrefixOf_cons₂, Bool.and_eq_true] at h
      simp only [List.length_cons]
      exact Nat.succ_le_succ (ih h.2)

theorem eq_append_of_isPrefixOf : ∀ {v s : List Char}, v.isPrefixOf s = true →
    s = v ++ s.drop v.length := by
  intro v
  induction v with
  | nil => intro s _; simp
  | cons a t ih =>
    intro s h
    cases s with
    | nil => simp at h
    | cons b bs =>
      rw [List.isPrefixOf_cons₂, Bool.and_eq_true] at h
      have hab := eq_of_beq h.1
      subst hab
      simp only [List.cons_append, List.length_cons, List.drop_succ_cons, List.cons.injEq,
        true_and]
      exact ih h.2

theorem isPrefixOf_append_self : ∀ (v u : List Char), v.isPrefixOf (v ++ u) = true := by
  intro v u
  induction v with
  | nil => simp
  | cons a t ih => rw [List.cons_append, List.isPrefixOf_cons₂, ih]; simp

theorem isPrefixOf_append_right : ∀ {v s : List Char} (u : List Char),
    v.isPrefixOf s = true → v.isPrefixOf (s ++ u) = true := by
  intro v
  induction v with
  | nil => intro s u _; simp
  | cons a t ih =>
    intro s u h
    cases s with
    | nil => simp at h
    | cons b bs =>
      rw [List.isPrefixOf_cons₂, Bool.and_eq_true] at h
      rw [List.cons_append, List.isPrefixOf_cons₂, h.1, ih u h.2]
      rfl

theorem toLower_toLower (c : Char) : c.toLower.toLower = c.toLower := by
  have key : ∀ d : Char, ¬(d.toNat ≥ 65 ∧ d.toNat ≤ 90) → d.toLower = d := by
    intro d hd
    simp only [Char.toLower]
    rw [if_neg hd]
  by_cases h : c.toNat ≥ 65 ∧ c.toNat ≤ 90
  · have h1 : c.toLower = Char.ofNat (c.toNat + 32) := by
      simp only [Char.toLower]
      rw [if_pos h]
    rw [h1]
    apply key
    intro hbad
    have hv : Nat.isValidChar (c.toNat + 32) := Or.inl (by omega)
    have ht : (Char.ofNat (c.toNat + 32)).toNat = c.toNat + 32 := by
      unfold Char.ofNat
      rw [dif_pos hv]
      rfl
    rw [ht] at hbad
    omega
  · rw [key c h]
    exact key c h

theorem prefix_reflect (a : Char) (t : List Char)
    (hlast : afterB (a :: t) = false) :
    ∀ (n : Nat) (v s : List Char) (bl : Bool), v.all isWordChar = true → s.length ≤ n →
      v.isPrefixOf (removeWordB (a :: t) bl s) = true → v.isPrefixOf s = true := by
  intro n
  induction n with
  | zero =>
    intro v s bl _ hn hp
    have hs : s = [] := List.length_eq_zero.1 (Nat.le_zero.1 hn)
    subst hs
    rw [removeWordB_nil] at hp
    exact hp
  | succ n ih =>
    intro v s bl hv hn hp
    cases s with
    | nil => rw [removeWordB_nil] at hp; exact hp
    | cons c cs =>
      rw [removeWordB_cons] at hp
      by_cases hm : matchCond (a :: t) bl (c :: cs) = true
      · rw [if_pos hm] at hp
        have hbr := (matchCond_parts hm).2.2.2
        have hv0 : v = [] := by
          cases hrest : (c :: cs).drop (a :: t).length with
          | nil =>
            rw [hrest, removeWordB_nil] at hp
            cases v with
            | nil => rfl
            | cons x v2 => simp at hp
          | cons e es =>
            rw [hrest] at hp hbr
            have he : isWordChar e = false := by
              cases hx : isWordChar e with
              | false => rfl
              | true => rw [boundaryR, hx] at hbr; exact absurd hbr (by decide)
            rw [removeWordB_cons] at hp
            have hmc : matchCond (a :: t) (afterB (a :: t)) (e :: es) = false := by
              rw [hlast]; exact matchCond_false_bl
            rw [if_neg (by rw [hmc]; exact Bool.false_ne_true)] at hp
            cases v with
            | nil => rfl
            | cons x v2 =>
              rw [List.isPrefixOf_cons₂, Bool.and_eq_true] at hp
              rw [List.all_cons, Bool.and_eq_true] at hv
              have hx : isWordChar x = true := hv.1
              rw [eq_of_beq hp.1] at hx
              rw [hx] at he
              exact absurd he (by decide)
        subst hv0
        simp
      · rw [if_neg hm] at hp
        cases v with
        | nil => simp
        | cons x v2 =>
          rw [List.isPrefixOf_cons₂, Bool.and_eq_true] at hp
          rw [List.all_cons, Bool.and_eq_true] at hv
          have h2 := ih v2 cs (!isWordChar c) hv.2
            (by simp only [List.length_cons] at hn; omega) hp.2
          rw [List.isPrefixOf_cons₂, hp.1, h2]
          rfl

theorem removeWordB_skip_words (w : List Char) :
    ∀ (v : List Char), v.all isWordChar = true →
      ∀ (s : List Char), v.isPrefixOf s = true →
        removeWordB w false s = v ++ removeWordB w false (s.drop v.length) := by
  intro v
  induction v with
  | nil => intro _ s _; simp
  | cons x v2 ih =>
    intro hv s hp
    cases s with
    | nil => simp at hp
    | cons c cs =>
      rw [List.isPrefixOf_cons₂, Bool.and_eq_true] at hp
      have hxc := eq_of_beq hp.1
      subst hxc
      rw [List.all_cons, Bool.and_eq_true] at hv
      rw [removeWordB_cons]
      rw [if_neg (by rw [matchCond_false_bl]; exact Bool.false_ne_true)]
      rw [List.length_cons, List.drop_succ_cons, List.cons_append]
      congr 1
      have hbc : (!isWordChar x) = false := by rw [hv.1]; rfl
      rw [hbc]
      exact ih hv.2 cs hp.2

theorem matchCond_transfer (a : Char) (t : List Char)
    (hlast : afterB (a :: t) = false)
    (v : List Char) (hv : v.all isWordChar = true)
    (c : Char) (cs : List Char) (bl : Bool)
    (hm : matchCond v bl (c :: cs) = false) :
    matchCond v bl (c :: removeWordB (a :: t) (!isWordChar c) cs) = false := by
  cases hres : matchCond v bl (c :: removeWordB (a :: t) (!isWordChar c) cs) with
  | false => rfl
  | true =>
    exfalso
    have hparts := matchCond_parts hres
    obtain ⟨x, v2, rfl⟩ : ∃ x v2, v = x :: v2 := by
      cases v with
      | nil => exact absurd hparts.1 (by decide)
      | cons x v2 => exact ⟨x, v2, rfl⟩
    have hpre := hparts.2.2.1
    rw [List.isPrefixOf_cons₂, Bool.and_eq_true] at hpre
    have hxc := eq_of_beq hpre.1
    subst hxc
    rw [List.all_cons, Bool.and_eq_true] at hv
    have hbc : (!isWordChar x) = false := by rw [hv.1]; rfl
    rw [hbc] at hres hparts hpre
    -- v2 is a prefix of the original cs
    have hv2cs : v2.isPrefixOf cs = true :=
      prefix_reflect a t hlast cs.length v2 cs false hv.2 (Nat.le_refl _) hpre.2
    -- decompose the failed original match
    rw [matchCond, hparts.2.1] at hm
    simp only [List.isEmpty_cons, Bool.not_false, Bool.true_and,
      Bool.and_eq_false_iff] at hm
    rcases hm with hm | hm
    · rw [List.isPrefixOf_cons₂] at hm
      simp only [beq_self_eq_true, Bool.true_and] at hm
      rw [hv2cs] at hm
      exact absurd hm (by decide)
    · obtain ⟨z, zs, hzzs, hz⟩ : ∃ z zs, cs.drop v2.length = z :: zs ∧ isWordChar z = true := by
        rw [List.length_cons, List.drop_succ_cons] at hm
        cases hl : cs.drop v2.length with
        | nil => rw [hl, boundaryR] at hm; exact absurd hm (by decide)
        | cons z zs =>
          rw [hl, boundaryR] at hm
          refine ⟨z, zs, rfl, ?_⟩
          cases hzz : isWordChar z with
          | true => rfl
          | false => rw [hzz] at hm; exact absurd hm (by decide)
      have hT := removeWordB_skip_words (a :: t) v2 hv.2 cs hv2cs
      have hbnd := hparts.2.2.2
      rw [List.length_cons, List.drop_succ_cons, hT, List.drop_left, hzzs] at hbnd
      rw [removeWordB_cons] at hbnd
      rw [if_neg (by rw [matchCond_false_bl]; exact Bool.false_ne_true)] at hbnd
      rw [boundaryR, hz] at hbnd
      exact absurd hbnd (by decide)

theorem afterB_singleton (c : Char) : afterB [c] = !isWordChar c := by
  simp [afterB]

theorem afterB_cons_cons (c d : Char) (ds : List Char) :
    afterB (c :: d :: ds) = afterB (d :: ds) := by
  simp only [afterB, List.getLast?_cons_cons]

theorem afterB_of_allWord : ∀ (l : List Char), l.all isWordChar = true →
    l = [] ∨ afterB l = false := by
  intro l
  induction l with
  | nil => intro _; exact Or.inl rfl
  | cons c cs ih =>
    intro h
    rw [List.all_cons, Bool.and_eq_true] at h
    right
    cases cs with
    | nil => rw [afterB_singleton, h.1]; rfl
    | cons d ds =>
      rw [afterB_cons_cons]
      rcases ih h.2 with h0 | h0
      · exact absurd h0 (by simp)
      · exact h0

theorem matchCond_head_mismatch {a : Char} {t : List Char} (ha : isWordChar a = true)
    {e : Char} (he : isWordChar e = false) (bl : Bool) (X : List Char) :
    matchCond (a :: t) bl (e :: X) = false := by
  rw [matchCond, List.isPrefixOf_cons₂, beq_false_of_word_nonword ha he]
  simp

theorem occ_flag_irrel_head_nonword {x : Char} {v2 : List Char} (hx : isWordChar x = true)
    {e : Char} (he : isWordChar e = false) (X : List Char) (b1 b2 : Bool)
    (h : hasWordOccB (x :: v2) b1 (e :: X) = false) :
    hasWordOccB (x :: v2) b2 (e :: X) = false := by
  rw [hasWordOccB_cons, Bool.or_eq_false_iff] at h ⊢
  exact ⟨matchCond_head_mismatch hx he b2 X, h.2⟩

theorem hasWordOccB_append_tail (v : List Char) :
    ∀ (u : List Char) (bl : Bool) (s : List Char),
      hasWordOccB v bl (u ++ s) = false →
      hasWordOccB v (if u.isEmpty then bl else afterB u) s = false := by
  intro u
  induction u with
  | nil => intro bl s h; simpa using h
  | cons x u2 ih =>
    intro bl s h
    rw [List.cons_append, hasWordOccB_cons, Bool.or_eq_false_iff] at h
    have h2 := ih (!isWordChar x) s h.2
    cases u2 with
    | nil =>
      simp only [List.isEmpty_nil, if_true] at h2
      simp only [List.isEmpty_cons, if_false]
      rw [afterB_singleton]
      exact h2
    | cons y u3 =>
      simp only [List.isEmpty_cons, if_false] at h2 ⊢
      rw [afterB_cons_cons]
      exact h2

theorem boundaryR_head_nonword {l : List Char} (h : boundaryR l = true) :
    ∀ {e : Char} {es : List Char}, l = e :: es → isWordChar e = false := by
  intro e es hl
  subst hl
  rw [boundaryR] at h
  cases hx : isWordChar e with
  | false => rfl
  | true => rw [hx] at h; exact absurd h (by decide)

theorem hasWordOcc_removeWord_self (a : Char) (t : List Char)
    (hall : (a :: t).all isWordChar = true) :
    ∀ (n : Nat) (s : List Char) (bl : Bool), s.length ≤ n →
      hasWordOccB (a :: t) bl (removeWordB (a :: t) bl s) = false := by
  have hlast : afterB (a :: t) = false := by
    rcases afterB_of_allWord _ hall with h | h
    · exact absurd h (by simp)
    · exact h
  have ha : isWordChar a = true := by
    rw [List.all_cons, Bool.and_eq_true] at hall
    exact hall.1
  intro n
  induction n with
  | zero =>
    intro s bl hn
    have hs : s = [] := List.length_eq_zero.1 (Nat.le_zero.1 hn)
    subst hs
    rw [removeWordB_nil]
    exact hasWordOccB_nil _ _
  | succ n ih =>
    intro s bl hn
    cases s with
    | nil => rw [removeWordB_nil]; exact hasWordOccB_nil _ _
    | cons c cs =>
      rw [removeWordB_cons]
      by_cases hm : matchCond (a :: t) bl (c :: cs) = true
      · rw [if_pos hm, hlast]
        have hbr := (matchCond_parts hm).2.2.2
        have hw := matchCond_length_pos hm
        have hlen : ((c :: cs).drop (a :: t).length).length ≤ n := by
          rw [List.length_drop, List.length_cons]
          simp only [List.length_cons] at hn
          omega
        have hIH := ih ((c :: cs).drop (a :: t).length) false hlen
        cases hrest : (c :: cs).drop (a :: t).length with
        | nil => rw [removeWordB_nil]; exact hasWordOccB_nil _ _
        | cons e es =>
          rw [hrest] at hIH hbr
          have he : isWordChar e = false := boundaryR_head_nonword hbr rfl
          rw [removeWordB_cons, if_neg (by rw [matchCond_false_bl]; exact Bool.false_ne_true)]
            at hIH ⊢
          exact occ_flag_irrel_head_nonword ha he _ false bl hIH
      · rw [if_neg hm]
        have hmf : matchCond (a :: t) bl (c :: cs) = false := by
          cases hmm : matchCond (a :: t) bl (c :: cs) with
          | false => rfl
          | true => exact absurd hmm hm
        rw [hasWordOccB_cons, Bool.or_eq_false_iff]
        constructor
        · exact matchCond_transfer a t hlast (a :: t) hall c cs bl hmf
        · exact ih cs (!isWordChar c) (by simp only [List.length_cons] at hn; omega)

theorem hasWordOcc_removeWord_other (a : Char) (t : List Char)
    (hlast : afterB (a :: t) = false)
    (x : Char) (v2 : List Char) (hv : (x :: v2).all isWordChar = true) :
    ∀ (n : Nat) (s : List Char) (bl : Bool), s.length ≤ n →
      hasWordOccB (x :: v2) bl s = false →
      hasWordOccB (x :: v2) bl (removeWordB (a :: t) bl s) = false := by
  have hx : isWordChar x = true := by
    rw [List.all_cons, Bool.and_eq_true] at hv
    exact hv.1
  intro n
  induction n with
  | zero =>
    intro s bl hn _
    have hs : s = [] := List.length_eq_zero.1 (Nat.le_zero.1 hn)
    subst hs
    rw [removeWordB_nil]
    exact hasWordOccB_nil _ _
  | succ n ih =>
    intro s bl hn hocc
    cases s with
    | nil => rw [removeWordB_nil]; exact hasWordOccB_nil _ _
    | cons c cs =>
      rw [hasWordOccB_cons, Bool.or_eq_false_iff] at hocc
      rw [removeWordB_cons]
      by_cases hm : matchCond (a :: t) bl (c :: cs) = true
      · rw [if_pos hm, hlast]
        have hbr := (matchCond_parts hm).2.2.2
        have hpre := (matchCond_parts hm).2.2.1
        have hw := matchCond_length_pos hm
        have hlen : ((c :: cs).drop (a :: t).length).length ≤ n := by
          rw [List.length_drop, List.length_cons]
          simp only [List.length_cons] at hn
          omega
        have horig : hasWordOccB (x :: v2) bl (c :: cs) = false := by
          rw [hasWordOccB_cons, Bool.or_eq_false_iff]
          exact hocc
        have heq := eq_append_of_isPrefixOf hpre
        have habs := hasWordOccB_append_tail (x :: v2) (a :: t) bl
          ((c :: cs).drop (a :: t).length) (by rw [← heq]; exact horig)
        simp only [List.isEmpty_cons, if_false] at habs
        rw [hlast] at habs
        have hIH := ih ((c :: cs).drop (a :: t).length) false hlen habs
        cases hrest : (c :: cs).drop (a :: t).length with
        | nil => rw [removeWordB_nil]; exact hasWordOccB_nil _ _
        | cons e es =>
          rw [hrest] at hIH hbr
          have he : isWordChar e = false := boundaryR_head_nonword hbr rfl
          rw [removeWordB_cons, if_neg (by rw [matchCond_false_bl]; exact Bool.false_ne_true)]
            at hIH ⊢
          exact occ_flag_irrel_head_nonword hx he _ false bl hIH
      · rw [if_neg hm]
        rw [hasWordOccB_cons, Bool.or_eq_false_iff]
        constructor
        · exact matchCond_transfer a t hlast (x :: v2) hv c cs bl hocc.1
        · exact ih cs (!isWordChar c) (by simp only [List.length_cons] at hn; omega) hocc.2

theorem occ_ev_implies_extra :
    ∀ (s : List Char) (bl : Bool),
      hasWordOccB ("extra virgin".data) bl s = true →
      hasWordOccB ("extra".data) bl s = true := by
  intro s
  induction s with
  | nil => intro bl h; rw [hasWordOccB_nil] at h; exact absurd h (by decide)
  | cons c cs ih =>
    intro bl h
    rw [hasWordOccB_cons, Bool.or_eq_true] at h
    rw [hasWordOccB_cons, Bool.or_eq_true]
    rcases h with h | h
    · left
      have hparts := matchCond_parts h
      have heq := eq_append_of_isPrefixOf hparts.2.2.1
      have hsplit : "extra virgin".data = "extra".data ++ " virgin".data := by decide
      rw [matchCond, hparts.2.1]
      have hpre5 : ("extra".data).isPrefixOf (c :: cs) = true := by
        rw [heq, hsplit, List.append_assoc]
        exact isPrefixOf_append_self _ _
      have hbnd : boundaryR ((c :: cs).drop ("extra".data).length) = true := by
        rw [heq, hsplit, List.append_assoc, List.drop_left]
        rfl
      rw [hpre5, hbnd]
      rfl
    · right
      exact ih _ h

theorem removeWord_ev_id (s : List Char) (bl : Bool)
    (h : hasWordOccB ("extra".data) bl s = false) :
    removeWordB ("extra virgin".data) bl s = s := by
  apply removeWordB_of_no_occ
  cases hocc : hasWordOccB ("extra virgin".data) bl s with
  | false => rfl
  | true =>
    have h2 := occ_ev_implies_extra s bl hocc
    rw [h] at h2
    exact absurd h2 (by decide)

theorem wordEdged_shape {w : List Char} (h : wordEdged w = true) :
    ∃ a t, w = a :: t ∧ isWordChar a = true ∧ afterB (a :: t) = false := by
  cases w with
  | nil => simp [wordEdged] at h
  | cons a t =>
    rw [wordEdged, Bool.and_eq_true] at h
    refine ⟨a, t, rfl, h.1, ?_⟩
    cases hb : afterB (a :: t) with
    | false => rfl
    | true => rw [hb] at h; exact absurd h.2 (by decide)

theorem fold_preserve (x : Char) (v2 : List Char) (hv : (x :: v2).all isWordChar = true) :
    ∀ (L : List String), (∀ adj ∈ L, wordEdged adj.data = true) →
      ∀ (s : List Char), hasWordOccB (x :: v2) true s = false →
        hasWordOccB (x :: v2) true
          (L.foldl (fun acc adj => removeWord adj.data acc) s) = false := by
  intro L
  induction L with
  | nil => intro _ s h; simpa using h
  | cons b L2 ih =>
    intro hL s h
    rw [List.foldl_cons]
    apply ih (fun adj ha => hL adj (List.mem_cons_of_mem _ ha))
    obtain ⟨a, t, hbd, _, hlast⟩ := wordEdged_shape (hL b (List.mem_cons_self _ _))
    rw [removeWord, hbd]
    exact hasWordOcc_removeWord_other a t hlast x v2 hv s.length s true (Nat.le_refl _) h

theorem fold_kills :
    ∀ (L : List String), (∀ adj ∈ L, wordEdged adj.data = true) →
      ∀ (v : String), v ∈ L → v.data.all isWordChar = true →
        ∀ (s : List Char),
          hasWordOccB v.data true
            (L.foldl (fun acc adj => removeWord adj.data acc) s) = false := by
  intro L
  induction L with
  | nil => intro _ v hv; simp at hv
  | cons b L2 ih =>
    intro hL v hmem hall s
    rw [List.foldl_cons]
    rcases List.mem_cons.1 hmem with rfl | hmem2
    · obtain ⟨x, v2, hvd⟩ : ∃ x v2, v.data = x :: v2 := by
        cases hvd : v.data with
        | nil =>
          have hwe := hL v (List.mem_cons_self _ _)
          rw [hvd] at hwe
          exact absurd hwe (by simp [wordEdged])
        | cons x v2 => exact ⟨x, v2, rfl⟩
      rw [hvd]
      apply fold_preserve x v2 (by rw [← hvd]; exact hall) L2
        (fun adj ha => hL adj (List.mem_cons_of_mem _ ha))
      rw [removeWord]
      exact hasWordOcc_removeWord_self x v2 (by rw [← hvd]; exact hall) s.length s true
        (Nat.le_refl _)
    · exact ih (fun adj ha => hL adj (List.mem_cons_of_mem _ ha)) v hmem2 hall
        (removeWord b.data s)

theorem fold_id_of_absent :
    ∀ (L : List String) (s : List Char),
      (∀ adj ∈ L, hasWordOccB adj.data true s = false) →
      L.foldl (fun acc adj => removeWord adj.data acc) s = s := by
  intro L
  induction L with
  | nil => intro s _; rfl
  | cons b L2 ih =>
    intro s h
    rw [List.foldl_cons, removeWord,
      removeWordB_of_no_occ _ _ _ (h b (List.mem_cons_self _ _))]
    exact ih s (fun adj ha => h adj (List.mem_cons_of_mem _ ha))

theorem boundaryR_nil : boundaryR [] = true := rfl

theorem boundaryR_cons (c : Char) (l : List Char) : boundaryR (c :: l) = !isWordChar c := rfl

theorem collapseAux_cons_space_false {c : Char} (hc : isSpaceJS c = true) (cs : List Char) :
    collapseAux (c :: cs) false = ' ' :: collapseAux cs true := by
  simp [collapseAux, hc]

theorem collapseAux_cons_space_true {c : Char} (hc : isSpaceJS c = true) (cs : List Char) :
    collapseAux (c :: cs) true = collapseAux cs true := by
  simp [collapseAux, hc]

theorem collapseAux_cons_nonspace {c : Char} (hc : isSpaceJS c = false) (cs : List Char)
    (b : Bool) : collapseAux (c :: cs) b = c :: collapseAux cs false := by
  simp [collapseAux, hc]

theorem occ_flag_mono (v : List Char) :
    ∀ (s : List Char) (bl : Bool), hasWordOccB v bl s = true →
      hasWordOccB v true s = true := by
  intro s
  induction s with
  | nil => intro bl h; rw [hasWordOccB_nil] at h; exact absurd h (by decide)
  | cons c cs ih =>
    intro bl h
    rw [hasWordOccB_cons, Bool.or_eq_true] at h ⊢
    rcases h with h | h
    · left
      have hbl := (matchCond_parts h).2.1
      rw [hbl] at h
      exact h
    · right
      exact h

theorem collapse_prefix_reflect :
    ∀ (cs : List Char) (v : List Char), v.all isWordChar = true →
      v.isPrefixOf (collapseAux cs false) = true → v.isPrefixOf cs = true := by
  intro cs
  induction cs with
  | nil => intro v _ hp; simpa [collapseAux] using hp
  | cons d ds ih =>
    intro v hv hp
    by_cases hd : isSpaceJS d = true
    · rw [collapseAux_cons_space_false hd] at hp
      cases v with
      | nil => simp
      | cons x v2 =>
        rw [List.isPrefixOf_cons₂, Bool.and_eq_true] at hp
        rw [List.all_cons, Bool.and_eq_true] at hv
        have hx := hv.1
        rw [eq_of_beq hp.1] at hx
        rw [space_not_word (by decide : isSpaceJS ' ' = true)] at hx
        exact absurd hx (by decide)
    · have hdf : isSpaceJS d = false := by
        cases hdd : isSpaceJS d with
        | false => rfl
        | true => exact absurd hdd hd
      rw [collapseAux_cons_nonspace hdf] at hp
      cases v with
      | nil => simp
      | cons x v2 =>
        rw [List.isPrefixOf_cons₂, Bool.and_eq_true] at hp
        rw [List.all_cons, Bool.and_eq_true] at hv
        rw [List.isPrefixOf_cons₂, hp.1, ih v2 hv.2 hp.2]
        rfl

theorem collapse_append_words :
    ∀ (u : List Char), (∀ c ∈ u, isSpaceJS c = false) →
      ∀ (r : List Char), collapseAux (u ++ r) false = u ++ collapseAux r false := by
  intro u
  induction u with
  | nil => intro _ r; rfl
  | cons x u2 ih =>
    intro h r
    have hx : isSpaceJS x = false := h x (List.mem_cons_self _ _)
    rw [List.cons_append, collapseAux_cons_nonspace hx,
      ih (fun c hc => h c (List.mem_cons_of_mem _ hc)) r, List.cons_append]

theorem boundaryR_collapse (r : List Char) :
    boundaryR (collapseAux r false) = boundaryR r := by
  cases r with
  | nil => rfl
  | cons z zs =>
    by_cases hz : isSpaceJS z = true
    · rw [collapseAux_cons_space_false hz, boundaryR_cons, boundaryR_cons,
        space_not_word hz, space_not_word (by decide : isSpaceJS ' ' = true)]
    · have hzf : isSpaceJS z = false := by
        cases hzz : isSpaceJS z with
        | false => rfl
        | true => exact absurd hzz hz
      rw [collapseAux_cons_nonspace hzf, boundaryR_cons, boundaryR_cons]

theorem occ_collapse (x : Char) (v2 : List Char) (hv : (x :: v2).all isWordChar = true) :
    ∀ (cs : List Char) (b : Bool) (bl : Bool),
      hasWordOccB (x :: v2) bl (collapseAux cs b) = true →
      hasWordOccB (x :: v2) bl cs = true := by
  have hx : isWordChar x = true := by
    rw [List.all_cons, Bool.and_eq_true] at hv
    exact hv.1
  have hvt : v2.all isWordChar = true := by
    rw [List.all_cons, Bool.and_eq_true] at hv
    exact hv.2
  intro cs
  induction cs with
  | nil =>
    intro b bl h
    rw [show collapseAux [] b = [] from rfl, hasWordOccB_nil] at h
    exact absurd h (by decide)
  | cons c cs2 ih =>
    intro b bl h
    by_cases hc : isSpaceJS c = true
    · have hcw : isWordChar c = false := space_not_word hc
      cases b with
      | true =>
        rw [collapseAux_cons_space_true hc] at h
        have h2 := ih true bl h
        rw [hasWordOccB_cons, Bool.or_eq_true]
        right
        rw [hcw]
        simp only [Bool.not_false]
        exact occ_flag_mono _ cs2 bl h2
      | false =>
        rw [collapseAux_cons_space_false hc] at h
        rw [hasWordOccB_cons, Bool.or_eq_true] at h
        rcases h with h | h
        · rw [matchCond_head_mismatch hx (by decide : isWordChar ' ' = false) bl _] at h
          exact absurd h (by decide)
        · simp only [show (!isWordChar ' ') = true by decide] at h
          have h2 := ih true true h
          rw [hasWordOccB_cons, Bool.or_eq_true]
          right
          rw [hcw]
          simp only [Bool.not_false]
          exact h2
    · have hcf : isSpaceJS c = false := by
        cases hcc : isSpaceJS c with
        | false => rfl
        | true => exact absurd hcc hc
      rw [collapseAux_cons_nonspace hcf] at h
      rw [hasWordOccB_cons, Bool.or_eq_true] at h
      rw [hasWordOccB_cons, Bool.or_eq_true]
      rcases h with h | h
      · left
        have hparts := matchCond_parts h
        have hpre := hparts.2.2.1
        rw [List.isPrefixOf_cons₂, Bool.and_eq_true] at hpre
        have hv2cs := collapse_prefix_reflect cs2 v2 hvt hpre.2
        have hallns : ∀ ch ∈ v2, isSpaceJS ch = false := by
          intro ch hch
          rw [List.all_eq_true] at hvt
          exact word_not_space (hvt ch hch)
        have hTsplit : collapseAux cs2 false =
            v2 ++ collapseAux (cs2.drop v2.length) false := by
          conv_lhs => rw [eq_append_of_isPrefixOf hv2cs]
          exact collapse_append_words v2 hallns _
        have hb := hparts.2.2.2
        rw [matchCond, hparts.2.1]
        have hpre_orig : (x :: v2).isPrefixOf (c :: cs2) = true := by
          rw [List.isPrefixOf_cons₂, hpre.1, hv2cs]
          rfl
        have hb_orig : boundaryR ((c :: cs2).drop (x :: v2).length) = true := by
          rw [List.length_cons, List.drop_succ_cons]
          rw [List.length_cons, List.drop_succ_cons, hTsplit, List.drop_left] at hb
          rw [boundaryR_collapse] at hb
          exact hb
        rw [hpre_orig, hb_orig]
        rfl
      · right
        exact ih false (!isWordChar c) h

theorem occ_trimL (v : List Char) :
    ∀ (s : List Char), hasWordOccB v true (trimL s) = true →
      hasWordOccB v true s = true := by
  intro s
  induction s with
  | nil => intro h; exact h
  | cons c cs ih =>
    intro h
    by_cases hc : isSpaceJS c = true
    · rw [trimL, List.dropWhile_cons_of_pos hc] at h
      have h2 := ih h
      rw [hasWordOccB_cons, Bool.or_eq_true]
      right
      rw [space_not_word hc]
      simp only [Bool.not_false]
      exact h2
    · rw [trimL, List.dropWhile_cons_of_neg hc] at h
      exact h

theorem trimR_nil_all_space :
    ∀ (s : List Char), trimR s = [] → ∀ c ∈ s, isSpaceJS c = true := by
  intro s
  induction s with
  | nil => intro _ c hc; simp at hc
  | cons d ds ih =>
    intro h c hc
    rw [trimR] at h
    cases h2 : trimR ds with
    | nil =>
      rw [h2] at h
      by_cases hd : isSpaceJS d = true
      · rcases List.mem_cons.1 hc with rfl | hc2
        · exact hd
        · exact ih h2 c hc2
      · rw [if_neg (by
          rw [show isSpaceJS d = false by
            cases hdd : isSpaceJS d with
            | false => rfl
            | true => exact absurd hdd hd]
          exact Bool.false_ne_true)] at h
        simp at h
    | cons y ys =>
      rw [h2] at h
      simp at h

theorem trimR_decomp :
    ∀ (s : List Char), ∃ u, s = trimR s ++ u ∧ ∀ c ∈ u, isSpaceJS c = true := by
  intro s
  induction s with
  | nil => exact ⟨[], rfl, by simp⟩
  | cons d ds ih =>
    rw [trimR]
    cases h2 : trimR ds with
    | nil =>
      by_cases hd : isSpaceJS d = true
      · rw [if_pos hd]
        exact ⟨d :: ds, rfl, by
          intro c hc
          rcases List.mem_cons.1 hc with rfl | hc2
          · exact hd
          · exact trimR_nil_all_space ds h2 c hc2⟩
      · rw [if_neg (by
          rw [show isSpaceJS d = false by
            cases hdd : isSpaceJS d with
            | false => rfl
            | true => exact absurd hdd hd]
          exact Bool.false_ne_true)]
        exact ⟨ds, rfl, trimR_nil_all_space ds h2⟩
    | cons y ys =>
      obtain ⟨u, hu, hus⟩ := ih
      refine ⟨u, ?_, hus⟩
      rw [List.cons_append, ← h2, ← hu]

theorem occ_append_boundary (v : List Char) :
    ∀ (ts : List Char) (bl : Bool) (u : List Char), boundaryR u = true →
      hasWordOccB v bl ts = true → hasWordOccB v bl (ts ++ u) = true := by
  intro ts
  induction ts with
  | nil => intro bl u _ h; rw [hasWordOccB_nil] at h; exact absurd h (by decide)
  | cons c ts2 ih =>
    intro bl u hu h
    rw [hasWordOccB_cons, Bool.or_eq_true] at h
    rw [List.cons_append, hasWordOccB_cons, Bool.or_eq_true]
    rcases h with h | h
    · left
      have hparts := matchCond_parts h
      have hlen := isPrefixOf_length_le hparts.2.2.1
      rw [matchCond, hparts.2.1]
      have hpre2 : v.isPrefixOf ((c :: ts2) ++ u) = true :=
        isPrefixOf_append_right u hparts.2.2.1
      have hb2 : boundaryR (((c :: ts2) ++ u).drop v.length) = true := by
        rw [List.drop_append_eq_append_drop]
        cases hdd : (c :: ts2).drop v.length with
        | nil =>
          rw [List.nil_append]
          have h0 : v.length - (c :: ts2).length = 0 := by
            simp only [List.length_cons] at hlen ⊢
            omega
          rw [h0, List.drop_zero]
          exact hu
        | cons e es =>
          have h0 : v.length - (c :: ts2).length = 0 := by
            have hld := List.length_drop v.length (c :: ts2)
            rw [hdd] at hld
            simp only [List.length_cons] at hld ⊢
            omega
          rw [h0, List.drop_zero, List.cons_append, boundaryR_cons]
          have hborig := hparts.2.2.2
          rw [hdd, boundaryR_cons] at hborig
          exact hborig
      rw [List.cons_append] at hpre2 hb2
      rw [hpre2, hb2]
      rw [hparts.1]
      rfl
    · right
      exact ih (!isWordChar c) u hu h

theorem occ_trimR (v : List Char) :
    ∀ (s : List Char) (bl : Bool), hasWordOccB v bl (trimR s) = true →
      hasWordOccB v bl s = true := by
  intro s bl h
  obtain ⟨u, hu, hus⟩ := trimR_decomp s
  rw [hu]
  apply occ_append_boundary v (trimR s) bl u _ h
  cases u with
  | nil => rfl
  | cons z zs =>
    rw [boundaryR_cons, space_not_word (hus z (List.mem_cons_self _ _))]
    rfl

theorem collapsedOK_singleton (c : Char) :
    collapsedOK [c] = (!isSpaceJS c || c == ' ') := rfl

theorem collapsedOK_cons_cons (c d : Char) (r : List Char) :
    collapsedOK (c :: d :: r) =
      ((!isSpaceJS c || (c == ' ' && !isSpaceJS d)) && collapsedOK (d :: r)) := rfl

theorem collapse_true_head :
    ∀ (cs : List Char), collapseAux cs true = [] ∨
      ∃ z zs, collapseAux cs true = z :: zs ∧ isSpaceJS z = false := by
  intro cs
  induction cs with
  | nil => exact Or.inl rfl
  | cons c cs2 ih =>
    by_cases hc : isSpaceJS c = true
    · rw [collapseAux_cons_space_true hc]
      exact ih
    · have hcf : isSpaceJS c = false := by
        cases hcc : isSpaceJS c with
        | false => rfl
        | true => exact absurd hcc hc
      rw [collapseAux_cons_nonspace hcf]
      exact Or.inr ⟨c, collapseAux cs2 false, rfl, hcf⟩

theorem collapsedOK_collapse : ∀ (s : List Char) (b : Bool),
    collapsedOK (collapseAux s b) = true := by
  intro s
  induction s with
  | nil => intro b; rfl
  | cons c cs ih =>
    intro b
    by_cases hc : isSpaceJS c = true
    · cases b with
      | true =>
        rw [collapseAux_cons_space_true hc]
        exact ih true
      | false =>
        rw [collapseAux_cons_space_false hc]
        rcases collapse_true_head cs with h0 | ⟨z, zs, hz, hzf⟩
        · rw [h0]
          decide
        · rw [hz, collapsedOK_cons_cons]
          have h2 := ih true
          rw [hz] at h2
          rw [h2, hzf]
          decide
    · have hcf : isSpaceJS c = false := by
        cases hcc : isSpaceJS c with
        | false => rfl
        | true => exact absurd hcc hc
      rw [collapseAux_cons_nonspace hcf]
      cases hY : collapseAux cs false with
      | nil =>
        rw [collapsedOK_singleton, hcf]
        rfl
      | cons d r =>
        rw [collapsedOK_cons_cons]
        have h2 := ih false
        rw [hY] at h2
        rw [h2, hcf]
        rfl

theorem collapsedOK_tail {c : Char} {cs : List Char}
    (h : collapsedOK (c :: cs) = true) : collapsedOK cs = true := by
  cases cs with
  | nil => rfl
  | cons d r =>
    rw [collapsedOK_cons_cons, Bool.and_eq_true] at h
    exact h.2

theorem collapsedOK_trimL {s : List Char} (h : collapsedOK s = true) :
    collapsedOK (trimL s) = true := by
  induction s with
  | nil => exact h
  | cons c cs ih =>
    by_cases hc : isSpaceJS c = true
    · rw [trimL, List.dropWhile_cons_of_pos hc]
      exact ih (collapsedOK_tail h)
    · rw [trimL, List.dropWhile_cons_of_neg hc]
      exact h

theorem collapsedOK_append_left :
    ∀ (t u : List Char), collapsedOK (t ++ u) = true → collapsedOK t = true := by
  intro t
  induction t with
  | nil => intro u _; rfl
  | cons x t2 ih =>
    intro u h
    cases t2 with
    | nil =>
      cases u with
      | nil => exact h
      | cons y u2 =>
        rw [List.cons_append, List.nil_append, collapsedOK_cons_cons,
          Bool.and_eq_true] at h
        rw [collapsedOK_singleton]
        rcases Bool.or_eq_true_iff.1 h.1 with h2 | h2
        · rw [h2]; rfl
        · rw [Bool.and_eq_true] at h2
          rw [h2.1]
          simp
    | cons z t3 =>
      rw [List.cons_append, List.cons_append, collapsedOK_cons_cons,
        Bool.and_eq_true] at h
      rw [collapsedOK_cons_cons]
      have h2 := ih u (by rw [List.cons_append]; exact h.2)
      rw [h.1, h2]
      rfl

theorem collapsedOK_trimR {s : List Char} (h : collapsedOK s = true) :
    collapsedOK (trimR s) = true := by
  obtain ⟨u, hu, _⟩ := trimR_decomp s
  exact collapsedOK_append_left (trimR s) u (by rw [← hu]; exact h)

theorem collapse_id_of_ok :
    ∀ (s : List Char), collapsedOK s = true →
      collapseAux s false = s ∧
      (∀ z zs, s = z :: zs → isSpaceJS z = false → collapseAux s true = s) := by
  intro s
  induction s with
  | nil => exact fun _ => ⟨rfl, fun z zs h => by simp at h⟩
  | cons c cs ih =>
    intro h
    by_cases hc : isSpaceJS c = true
    · have hceq : c = ' ' := by
        cases cs with
        | nil =>
          rw [collapsedOK_singleton, hc] at h
          simp only [Bool.not_true, Bool.false_or] at h
          exact eq_of_beq h
        | cons d r =>
          rw [collapsedOK_cons_cons, Bool.and_eq_true, hc] at h
          have h1 := h.1
          simp only [Bool.not_true, Bool.false_or, Bool.and_eq_true] at h1
          exact eq_of_beq h1.1
      have htail : collapseAux cs true = cs := by
        cases cs with
        | nil => rfl
        | cons d r =>
          have hd : isSpaceJS d = false := by
            rw [collapsedOK_cons_cons, Bool.and_eq_true, hc] at h
            have h1 := h.1
            simp only [Bool.not_true, Bool.false_or, Bool.and_eq_true,
              Bool.not_eq_true'] at h1
            exact h1.2
          exact (ih (collapsedOK_tail h)).2 d r rfl hd
      constructor
      · rw [collapseAux_cons_space_false hc, htail, hceq]
      · intro z zs heq hz
        injection heq with h1 h2
        rw [← h1] at hz
        rw [hc] at hz
        exact absurd hz (by decide)
    · have hcf : isSpaceJS c = false := by
        cases hcc : isSpaceJS c with
        | false => rfl
        | true => exact absurd hcc hc
      have htail := (ih (collapsedOK_tail h)).1
      constructor
      · rw [collapseAux_cons_nonspace hcf, htail]
      · intro z zs _ _
        rw [collapseAux_cons_nonspace hcf, htail]

theorem trimL_eq_self {s : List Char}
    (h : ∀ z zs, s = z :: zs → isSpaceJS z = false) : trimL s = s := by
  cases s with
  | nil => rfl
  | cons c cs =>
    rw [trimL, List.dropWhile_cons_of_neg (by rw [h c cs rfl]; exact Bool.false_ne_true)]

theorem trimL_head :
    ∀ (s : List Char) (z : Char) (zs : List Char), trimL s = z :: zs →
      isSpaceJS z = false := by
  intro s
  induction s with
  | nil => intro z zs h; simp [trimL] at h
  | cons c cs ih =>
    intro z zs h
    by_cases hc : isSpaceJS c = true
    · rw [trimL, List.dropWhile_cons_of_pos hc] at h
      exact ih z zs h
    · rw [trimL, List.dropWhile_cons_of_neg hc] at h
      injection h with h1 _
      subst h1
      cases hcc : isSpaceJS c with
      | false => rfl
      | true => exact absurd hcc hc

theorem trimR_head :
    ∀ (s : List Char) (z : Char) (zs : List Char), trimR s = z :: zs →
      ∃ t, s = z :: t := by
  intro s
  cases s with
  | nil => intro z zs h; simp [trimR] at h
  | cons c cs =>
    intro z zs h
    rw [trimR] at h
    cases h2 : trimR cs with
    | nil =>
      rw [h2] at h
      by_cases hc : isSpaceJS c = true
      · rw [if_pos hc] at h
        simp at h
      · rw [if_neg (by
          rw [show isSpaceJS c = false by
            cases hcc : isSpaceJS c with
            | false => rfl
            | true => exact absurd hcc hc]
          exact Bool.false_ne_true)] at h
        injection h with h1 _
        exact ⟨cs, by rw [h1]⟩
    | cons y ys =>
      rw [h2] at h
      injection h with h1 _
      exact ⟨cs, by rw [h1]⟩

theorem trimR_last :
    ∀ (s : List Char) (c : Char), (trimR s).getLast? = some c → isSpaceJS c = false := by
  intro s
  induction s with
  | nil => intro c h; simp [trimR] at h
  | cons d ds ih =>
    intro c h
    rw [trimR] at h
    cases h2 : trimR ds with
    | nil =>
      rw [h2] at h
      by_cases hd : isSpaceJS d = true
      · rw [if_pos hd] at h
        simp at h
      · rw [if_neg (by
          rw [show isSpaceJS d = false by
            cases hdd : isSpaceJS d with
            | false => rfl
            | true => exact absurd hdd hd]
          exact Bool.false_ne_true)] at h
        simp only [List.getLast?_singleton, Option.some.injEq] at h
        subst h
        cases hdd : isSpaceJS d with
        | false => rfl
        | true => exact absurd hdd hd
    | cons y ys =>
      rw [h2] at h
      rw [List.getLast?_cons_cons] at h
      apply ih
      rw [h2]
      exact h

theorem trimR_idem (s : List Char) : trimR (trimR s) = trimR s :=
  trimR_eq_self_of_last (fun c hc => trimR_last s c hc)

theorem mem_removeWordB (w : List Char) :
    ∀ (n : Nat) (s : List Char) (bl : Bool) (x : Char), s.length ≤ n →
      x ∈ removeWordB w bl s → x ∈ s := by
  intro n
  induction n with
  | zero =>
    intro s bl x hn hx
    have hs : s = [] := List.length_eq_zero.1 (Nat.le_zero.1 hn)
    subst hs
    rw [removeWordB_nil] at hx
    exact hx
  | succ n ih =>
    intro s bl x hn hx
    cases s with
    | nil => rw [removeWordB_nil] at hx; exact hx
    | cons c cs =>
      rw [removeWordB_cons] at hx
      by_cases hm : matchCond w bl (c :: cs) = true
      · rw [if_pos hm] at hx
        have hw := matchCond_length_pos hm
        have hlen : ((c :: cs).drop w.length).length ≤ n := by
          rw [List.length_drop, List.length_cons]
          simp only [List.length_cons] at hn
          omega
        exact List.mem_of_mem_drop (ih _ _ x hlen hx)
      · rw [if_neg hm] at hx
        rcases List.mem_cons.1 hx with rfl | hx2
        · exact List.mem_cons_self _ _
        · exact List.mem_cons_of_mem _
            (ih cs _ x (by simp only [List.length_cons] at hn; omega) hx2)

theorem mem_fold_remove :
    ∀ (L : List String) (s : List Char) (x : Char),
      x ∈ L.foldl (fun acc adj => removeWord adj.data acc) s → x ∈ s := by
  intro L
  induction L with
  | nil => intro s x hx; exact hx
  | cons b L2 ih =>
    intro s x hx
    rw [List.foldl_cons] at hx
    exact mem_removeWordB b.data s.length s true x (Nat.le_refl _) (ih _ x hx)

theorem mem_collapseAux :
    ∀ (s : List Char) (b : Bool) (x : Char), x ∈ collapseAux s b → x ∈ s ∨ x = ' ' := by
  intro s
  induction s with
  | nil => intro b x hx; simp [collapseAux] at hx
  | cons c cs ih =>
    intro b x hx
    by_cases hc : isSpaceJS c = true
    · cases b with
      | true =>
        rw [collapseAux_cons_space_true hc] at hx
        rcases ih true x hx with h | h
        · exact Or.inl (List.mem_cons_of_mem _ h)
        · exact Or.inr h
      | false =>
        rw [collapseAux_cons_space_false hc] at hx
        rcases List.mem_cons.1 hx with rfl | hx2
        · exact Or.inr rfl
        · rcases ih true x hx2 with h | h
          · exact Or.inl (List.mem_cons_of_mem _ h)
          · exact Or.inr h
    · have hcf : isSpaceJS c = false := by
        cases hcc : isSpaceJS c with
        | false => rfl
        | true => exact absurd hcc hc
      rw [collapseAux_cons_nonspace hcf] at hx
      rcases List.mem_cons.1 hx with rfl | hx2
      · exact Or.inl (List.mem_cons_self _ _)
      · rcases ih false x hx2 with h | h
        · exact Or.inl (List.mem_cons_of_mem _ h)
        · exact Or.inr h

theorem mem_trimL {s : List Char} {x : Char} (hx : x ∈ trimL s) : x ∈ s :=
  (List.dropWhile_sublist isSpaceJS).subset hx

theorem mem_trimR {s : List Char} {x : Char} (hx : x ∈ trimR s) : x ∈ s := by
  obtain ⟨u, hu, _⟩ := trimR_decomp s
  rw [hu]
  exact List.mem_append_left u hx

theorem mem_trimWS {s : List Char} {x : Char} (hx : x ∈ trimWS s) : x ∈ s :=
  mem_trimL (mem_trimR hx)

theorem lowerL_cleanCore (s : List Char) : lowerL (cleanCore s) = cleanCore s := by
  have hfix : ∀ x ∈ cleanCore s, x.toLower = x := by
    intro x hx
    have h1 : x ∈ collapseWS (removeAdjectives (trimWS (lowerL s))) := mem_trimWS hx
    rcases mem_collapseAux _ false x h1 with h2 | h2
    · have h3 : x ∈ trimWS (lowerL s) := mem_fold_remove _ _ x h2
      have h4 : x ∈ lowerL s := mem_trimWS h3
      obtain ⟨y, _, rfl⟩ := List.mem_map.1 h4
      exact toLower_toLower y
    · rw [h2]
      rfl
  rw [lowerL, List.map_congr_left hfix]
  exact List.map_id' _

theorem trimL_cleanCore (s : List Char) : trimL (cleanCore s) = cleanCore s := by
  apply trimL_eq_self
  intro z zs h
  obtain ⟨t2, ht⟩ := trimR_head _ z zs h
  exact trimL_head _ z t2 ht

theorem trimR_cleanCore (s : List Char) : trimR (cleanCore s) = cleanCore s :=
  trimR_idem _

theorem trimWS_cleanCore (s : List Char) : trimWS (cleanCore s) = cleanCore s := by
  rw [trimWS, trimL_cleanCore, trimR_cleanCore]

theorem collapsedOK_cleanCore (s : List Char) : collapsedOK (cleanCore s) = true :=
  collapsedOK_trimR (collapsedOK_trimL (collapsedOK_collapse _ false))

theorem collapseWS_cleanCore (s : List Char) : collapseWS (cleanCore s) = cleanCore s :=
  (collapse_id_of_ok _ (collapsedOK_cleanCore s)).1

theorem occ_transfer_clean (x : Char) (v2 : List Char)
    (hv : (x :: v2).all isWordChar = true) (r : List Char)
    (h : hasWordOccB (x :: v2) true r = false) :
    hasWordOccB (x :: v2) true (trimWS (collapseWS r)) = false := by
  cases hocc : hasWordOccB (x :: v2) true (trimWS (collapseWS r)) with
  | false => rfl
  | true =>
    rw [trimWS] at hocc
    have h1 := occ_trimR _ _ _ hocc
    have h2 := occ_trimL _ _ h1
    rw [collapseWS] at h2
    have h3 := occ_collapse x v2 hv r false true h2
    rw [h] at h3
    exact absurd h3 (by decide)

theorem cleanCore_no_occ_single (s : List Char) (v : String)
    (hmem : v ∈ REMOVE_ADJECTIVES) (hall : v.data.all isWordChar = true)
    (hne : v.data ≠ []) :
    hasWordOccB v.data true (cleanCore s) = false := by
  obtain ⟨x, v2, hvd⟩ : ∃ x v2, v.data = x :: v2 := by
    cases hvv : v.data with
    | nil => exact absurd hvv hne
    | cons x v2 => exact ⟨x, v2, rfl⟩
  have hr : hasWordOccB v.data true (removeAdjectives (trimWS (lowerL s))) = false :=
    fold_kills REMOVE_ADJECTIVES (by decide) v hmem hall (trimWS (lowerL s))
  rw [cleanCore]
  rw [hvd] at hr ⊢
  exact occ_transfer_clean x v2 (by rw [← hvd]; exact hall) _ hr

theorem cleanCore_no_occ (s : List Char) :
    ∀ adj ∈ REMOVE_ADJECTIVES, hasWordOccB adj.data true (cleanCore s) = false := by
  have hextra : hasWordOccB ("extra".data) true (cleanCore s) = false :=
    cleanCore_no_occ_single s "extra" (by decide) (by decide) (by decide)
  intro adj hadj
  fin_cases hadj
  case _ => exact cleanCore_no_occ_single s _ (by decide) (by decide) (by decide)
  case _ => exact cleanCore_no_occ_single s _ (by decide) (by decide) (by decide)
  case _ => exact cleanCore_no_occ_single s _ (by decide) (by decide) (by decide)
  case _ => exact cleanCore_no_occ_single s _ (by decide) (by decide) (by decide)
  case _ => exact cleanCore_no_occ_single s _ (by decide) (by decide) (by decide)
  case _ => exact cleanCore_no_occ_single s _ (by decide) (by decide) (by decide)
  case _ => exact cleanCore_no_occ_single s _ (by decide) (by decide) (by decide)
  case _ => exact cleanCore_no_occ_single s _ (by decide) (by decide) (by decide)
  case _ => exact cleanCore_no_occ_single s _ (by decide) (by decide) (by decide)
  case _ =>
    cases hocc : hasWordOccB ("extra virgin".data) true (cleanCore s) with
    | false => rfl
    | true =>
      have h2 := occ_ev_implies_extra _ _ hocc
      rw [hextra] at h2
      exact absurd h2 (by decide)
  case _ => exact cleanCore_no_occ_single s _ (by decide) (by decide) (by decide)
  case _ => exact cleanCore_no_occ_single s _ (by decide) (by decide) (by decide)
  case _ => exact cleanCore_no_occ_single s _ (by decide) (by decide) (by decide)

theorem removeAdjectives_cleanCore (s : List Char) :
    removeAdjectives (cleanCore s) = cleanCore s :=
  fold_id_of_absent REMOVE_ADJECTIVES (cleanCore s) (cleanCore_no_occ s)

theorem cleanCore_fixed (s : List Char) : cleanCore (cleanCore s) = cleanCore s := by
  conv_lhs => rw [cleanCore]
  rw [lowerL_cleanCore, trimWS_cleanCore, removeAdjectives_cleanCore,
    collapseWS_cleanCore, trimWS_cleanCore]

theorem normalizeNameL_idem (l : List Char) :
    normalizeNameL (normalizeNameL l) = normalizeNameL l := by
  by_cases h1 : hasSub "soy milk".data (cleanCore l) = true
  · have hr : normalizeNameL l = "soy milk".data := by
      simp only [normalizeNameL]
      rw [if_pos h1]
    rw [hr]
    decide
  · by_cases h2 : hasSub "apple cider vinegar".data (cleanCore l) = true
    · have hr : normalizeNameL l = "vinegar".data := by
        simp only [normalizeNameL]
        rw [if_neg h1, if_pos h2]
      rw [hr]
      decide
    · by_cases h3 : hasSub "balsamic".data (cleanCore l) = true
      · have hr : normalizeNameL l = "balsamic vinegar".data := by
          simp only [normalizeNameL]
          rw [if_neg h1, if_neg h2, if_pos h3]
        rw [hr]
        decide
      · by_cases h4 : hasSub "smoked tofu".data (cleanCore l) = true
        · have hr : normalizeNameL l = "tofu".data := by
            simp only [normalizeNameL]
            rw [if_neg h1, if_neg h2, if_neg h3, if_pos h4]
          rw [hr]
          decide
        · have hr : normalizeNameL l = cleanCore l := by
            simp only [normalizeNameL]
            rw [if_neg h1, if_neg h2, if_neg h3, if_neg h4]
          rw [hr]
          simp only [normalizeNameL]
          rw [cleanCore_fixed]
          rw [if_neg h1, if_neg h2, if_neg h3, if_neg h4]

theorem data_mk (l : List Char) : (String.mk l).data = l := rfl

/-- Claim C6: name cleaning is idempotent — `normalizeName` applied to its
own output returns the output unchanged, for every input string. -/
theorem claim_C6_normalizeName_idem (s : String) :
    normalizeName (normalizeName s) = normalizeName s := by
  conv_lhs => rw [normalizeName, normalizeName]
  conv_rhs => rw [normalizeName]
  rw [data_mk, normalizeNameL_idem]

/-- Claim C7: every output of `normalizeName` is lower-case and trimmed (no
leading or trailing whitespace), contains no stoplist adjective as a whole
word (adjectives inside longer words are untouched — removal is whole-word
only), and in particular "extraordinary squash" passes through with
"extraordinary" intact. -/
theorem claim_C7_whole_word_removal (s : String) :
    lowerL (normalizeName s).data = (normalizeName s).data ∧
    trimWS (normalizeName s).data = (normalizeName s).data ∧
    (∀ adj ∈ REMOVE_ADJECTIVES,
      hasWordOccB adj.data true (normalizeName s).data = false) ∧
    normalizeName "extraordinary squash" = "extraordinary squash" := by
  have hnl : (normalizeName s).data = normalizeNameL s.data := by rw [normalizeName]
  have hcases : normalizeNameL s.data = "soy milk".data ∨
      normalizeNameL s.data = "vinegar".data ∨
      normalizeNameL s.data = "balsamic vinegar".data ∨
      normalizeNameL s.data = "tofu".data ∨
      normalizeNameL s.data = cleanCore s.data := by
    simp only [normalizeNameL]
    by_cases h1 : hasSub "soy milk".data (cleanCore s.data) = true
    · rw [if_pos h1]; exact Or.inl rfl
    · rw [if_neg h1]
      by_cases h2 : hasSub "apple cider vinegar".data (cleanCore s.data) = true
      · rw [if_pos h2]; exact Or.inr (Or.inl rfl)
      · rw [if_neg h2]
        by_cases h3 : hasSub "balsamic".data (cleanCore s.data) = true
        · rw [if_pos h3]; exact Or.inr (Or.inr (Or.inl rfl))
        · rw [if_neg h3]
          by_cases h4 : hasSub "smoked tofu".data (cleanCore s.data) = true
          · rw [if_pos h4]; exact Or.inr (Or.inr (Or.inr (Or.inl rfl)))
          · rw [if_neg h4]; exact Or.inr (Or.inr (Or.inr (Or.inr rfl)))
  rcases hcases with h | h | h | h | h
  · rw [hnl, h]; exact ⟨by decide, by decide, by decide, by decide⟩
  · rw [hnl, h]; exact ⟨by decide, by decide, by decide, by decide⟩
  · rw [hnl, h]; exact ⟨by decide, by decide, by decide, by decide⟩
  · rw [hnl, h]; exact ⟨by decide, by decide, by decide, by decide⟩
  · rw [hnl, h]
    exact ⟨lowerL_cleanCore _, trimWS_cleanCore _, cleanCore_no_occ _, by decide⟩

/-- Witness for C7: the stoplist word "fresh" is gone (as a whole word) from
the cleaned name of "fresh tomato". -/
theorem claim_C7_witness :
    hasWordOccB ("fresh".data) true (normalizeName "fresh tomato").data = false :=
  (claim_C7_whole_word_removal "fresh tomato").2.2.1 "fresh" (by decide)
